import Mathlib

/-!
Verification of the multi-agent swarm simulation core (grid map with A*
pathfinding, base aggregator, shared frontier bookkeeping).

The definitions below are a shallow embedding of the Rust sources:
`map.rs` (cells, grid accessors, `try_collect_one`, A* `find_path`,
`next_step_towards`), `base.rs` (`BaseShared` reservation table and the
`base_loop` statistics), and `robots.rs` (frontier queue operations).
Machine integers (`u32`) are modelled as `Nat`; `u32::saturating_add`
clamps at `2^32 - 1`, and the one unchecked `+= 1` is modelled with
wrap-around `% 2^32` (release-build semantics; debug builds panic there).
Vector indexing that can panic is modelled with `Option` (`none` = panic).
-/

set_option maxHeartbeats 1600000

namespace Swarm

/-- Grid cell (`enum Cell` in `map.rs`). Resource quantities are `u32`,
modelled as `Nat`. -/
inductive Cell
  | Empty
  | Obstacle
  | Energy (q : Nat)
  | Crystal (q : Nat)
  | Base
deriving DecidableEq, Repr

/-- Grid positions `(x, y)` (`(usize, usize)` in the source). -/
abbrev Pos : Type := Nat × Nat

/-- `u32::MAX`, used by `find_path` as the default g-score and by
`saturating_add` as the clamp. -/
def U32MAX : Nat := 2 ^ 32 - 1

/-- The body of `Map::try_collect_one` acting on the single addressed cell:
returns the harvested unit-cell (or `none`) together with the new cell value. -/
def tryCollectCell : Cell → Option Cell × Cell
  | Cell.Energy q =>
    if 0 < q then
      (some (Cell.Energy 1), if q - 1 = 0 then Cell.Empty else Cell.Energy (q - 1))
    else (none, Cell.Energy q)
  | Cell.Crystal q =>
    if 0 < q then
      (some (Cell.Crystal 1), if q - 1 = 0 then Cell.Empty else Cell.Crystal (q - 1))
    else (none, Cell.Crystal q)
  | c => (none, c)

/-- Cell contents after `n` successive `try_collect_one` calls. -/
def collectState (c : Cell) : Nat → Cell
  | 0 => c
  | n + 1 => (tryCollectCell (collectState c n)).2

/-- Return value of the `n`-th (0-indexed) `try_collect_one` call. -/
def collectResult (c : Cell) (n : Nat) : Option Cell :=
  (tryCollectCell (collectState c n)).1

/-- Number of successful collections among the first `n` calls. -/
def successCount (c : Cell) : Nat → Nat
  | 0 => 0
  | n + 1 => successCount c n + (if (collectResult c n).isSome then 1 else 0)

/-- Number of calls among the first `n` that both succeed and leave the cell
`Empty` (i.e. observe the transition to `Empty`). -/
def emptyTransCount (c : Cell) : Nat → Nat
  | 0 => 0
  | n + 1 =>
    emptyTransCount c n +
      (if (collectResult c n).isSome ∧ collectState c (n + 1) = Cell.Empty then 1 else 0)

/-- Initial quantity stored in a cell (0 for non-resources). -/
def initQty : Cell → Nat
  | Cell.Energy q => q
  | Cell.Crystal q => q
  | _ => 0

/-- The `Map` grid: `width`/`height` fields plus the `Vec<Vec<Cell>>` contents
(`base_pos` is irrelevant to the verified operations and omitted). -/
structure MapModel where
  width : Nat
  height : Nat
  grid : List (List Cell)
deriving DecidableEq, Repr

/-- Well-formedness that `Map::from_area` guarantees: the vector really is a
`height × width` matrix. -/
def WF (m : MapModel) : Prop :=
  m.grid.length = m.height ∧ ∀ row ∈ m.grid, row.length = m.width

/-- `Map::get_cell` — the unchecked `g[y][x]`; `none` models the panic on an
out-of-range index. -/
def getCell (m : MapModel) (x y : Nat) : Option Cell :=
  match m.grid[y]? with
  | some row => row[x]?
  | none => none

/-- `Map::set_cell` — unchecked `g[y][x] = cell`; `none` models the panic. -/
def setCell (m : MapModel) (x y : Nat) (c : Cell) : Option MapModel :=
  match m.grid[y]? with
  | none => none
  | some row =>
    if x < row.length then some { m with grid := m.grid.set y (row.set x c) } else none

/-- `Map::try_collect_one` at grid level — unchecked `g[y][x]` read/write plus
the cell-level decrement; `none` models the panic. -/
def tryCollectOneGrid (m : MapModel) (x y : Nat) : Option (Option Cell × MapModel) :=
  match m.grid[y]? with
  | none => none
  | some row =>
    match row[x]? with
    | none => none
    | some c =>
      some ((tryCollectCell c).1, { m with grid := m.grid.set y (row.set x (tryCollectCell c).2) })

/-- `Map::is_walkable`: everything except `Obstacle`. -/
def isWalkable : Cell → Bool
  | Cell.Obstacle => false
  | _ => true

/-- `Map::in_bounds`. -/
def inBounds (m : MapModel) (x y : Int) : Bool :=
  decide (0 ≤ x) && decide (0 ≤ y) && decide (x.toNat < m.width) && decide (y.toNat < m.height)

/-- The direction array used by `Map::neighbors`. -/
def dirs : List (Int × Int) := [(1, 0), (-1, 0), (0, 1), (0, -1)]

/-- The loop body of `Map::neighbors` for one direction `d`: bounds check,
`get_cell`, walkability filter. (The inner `none` branch is the unreachable
panic of `get_cell` on a ragged grid.) -/
def nbCand (m : MapModel) (p : Pos) (d : Int × Int) : Option Pos :=
  let nx : Int := (p.1 : Int) + d.1
  let ny : Int := (p.2 : Int) + d.2
  if inBounds m nx ny then
    match getCell m nx.toNat ny.toNat with
    | some c => if isWalkable c then some (nx.toNat, ny.toNat) else none
    | none => none
  else none

/-- `Map::neighbors`: in-bounds, walkable 4-neighbours, in direction order. -/
def neighbors (m : MapModel) (p : Pos) : List Pos :=
  dirs.filterMap (nbCand m p)

/-- `Map::heuristic`: Manhattan distance. -/
def heuristic (a b : Pos) : Nat :=
  ((a.1 : Int) - (b.1 : Int)).natAbs + ((a.2 : Int) - (b.2 : Int)).natAbs

/-- The A* heap entry (`struct Node` in `map.rs`). -/
structure Node where
  pos : Pos
  cost : Nat
  est : Nat
deriving DecidableEq, Repr

/-- Lexicographic order on positions (Rust's derived tuple `Ord`). -/
def posLtB (a b : Pos) : Bool :=
  decide (a.1 < b.1) || (decide (a.1 = b.1) && decide (a.2 < b.2))

/-- `a` is strictly greater than `b` in the `Ord` instance of `Node`
(reversed `estimated_total_cost`, ties broken by position). -/
def nodeAbove (a b : Node) : Bool :=
  decide (a.est < b.est) || (decide (a.est = b.est) && posLtB b.pos a.pos)

/-- `BinaryHeap::pop`: removes a maximal node (minimal estimated total cost;
ties by largest position). Which representative of `Ord`-equal nodes is
returned does not affect the algorithm (they share `pos`, the only field
read after popping). -/
def popMax : List Node → Option (Node × List Node)
  | [] => none
  | n :: rest =>
    match popMax rest with
    | none => some (n, [])
    | some (mx, others) => if nodeAbove mx n then some (mx, n :: others) else some (n, rest)

/-- Association-list lookup modelling `HashMap::get` (later inserts shadow
earlier ones). -/
def alookup {β : Type} : List (Pos × β) → Pos → Option β
  | [], _ => none
  | (k, v) :: t, p => if k = p then some v else alookup t p

/-- The mutable state of the `find_path` loop. -/
structure AState where
  openSet : List Node
  cameFrom : List (Pos × Pos)
  gScore : List (Pos × Nat)

/-- One iteration of the `for neighbor in self.neighbors(current.pos)` body:
`tentative_g = g_score[current] + 1`; on improvement record parent, g-score
and push the node. -/
def relaxNeighbor (t curPos : Pos) (s : AState) (nb : Pos) : AState :=
  let tentative := (alookup s.gScore curPos).getD U32MAX + 1
  if tentative < (alookup s.gScore nb).getD U32MAX then
    { openSet := { pos := nb, cost := tentative, est := tentative + heuristic nb t } :: s.openSet,
      cameFrom := (nb, curPos) :: s.cameFrom,
      gScore := (nb, tentative) :: s.gScore }
  else s

/-- Relax all neighbours of the popped node. -/
def expand (m : MapModel) (t curPos : Pos) (s : AState) : AState :=
  (neighbors m curPos).foldl (relaxNeighbor t curPos) s

/-- Path reconstruction (`while let Some(prev) = came_from.get(&cur)`), with
fuel; the fuel never runs out on states reachable by the algorithm. -/
def recon (came : List (Pos × Pos)) : Nat → Pos → List Pos
  | 0, cur => [cur]
  | fuel + 1, cur =>
    match alookup came cur with
    | none => [cur]
    | some prev => cur :: recon came fuel prev

/-- Outcome of the search loop. -/
inductive AResult
  | found (p : List Pos)
  | noPath
  | outOfFuel
deriving DecidableEq, Repr

/-- The `while let Some(current) = open_set.pop()` loop of `Map::find_path`. -/
def astarGo (m : MapModel) (t : Pos) : Nat → AState → AResult
  | 0, _ => AResult.outOfFuel
  | fuel + 1, s =>
    match popMax s.openSet with
    | none => AResult.noPath
    | some (cur, rest) =>
      if cur.pos = t then
        AResult.found ((recon s.cameFrom (s.cameFrom.length + 1) t).reverse)
      else
        astarGo m t fuel (expand m t cur.pos { s with openSet := rest })

/-- Fuel that provably outlasts the loop (the loop performs at most
one push per strict g-score improvement). -/
def astarFuel (m : MapModel) : Nat :=
  (m.width * m.height + 1) * (m.width * m.height + 2) + 2

/-- The initial loop state of `find_path`: the start node pushed, its g-score
zero, no parents recorded. -/
def initAState (fr t : Pos) : AState :=
  { openSet := [{ pos := fr, cost := 0, est := heuristic fr t }],
    cameFrom := [], gScore := [(fr, 0)] }

/-- `Map::find_path`. -/
def findPath (m : MapModel) (fr t : Pos) : Option (List Pos) :=
  if fr = t then some [fr]
  else
    match astarGo m t (astarFuel m) (initAState fr t) with
    | AResult.found p => some p
    | _ => none

/-- `Map::next_step_towards`. -/
def nextStepTowards (m : MapModel) (fr t : Pos) : Pos :=
  match findPath m fr t with
  | some path => if 1 < path.length then path.getD 1 fr else fr
  | none => fr

/-- `v` can be reached from `src` in exactly `n` steps through `neighbors`. -/
def stepsTo (m : MapModel) (src : Pos) : Nat → Pos → Prop
  | 0, v => v = src
  | n + 1, v => ∃ u, stepsTo m src n u ∧ v ∈ neighbors m u

/-- `d` is the length of a shortest `neighbors`-walk from `src` to `p`. -/
def IsDist (m : MapModel) (src : Pos) (d : Nat) (p : Pos) : Prop :=
  stepsTo m src d p ∧ ∀ j, stepsTo m src j p → d ≤ j

/-- A path as returned by `find_path`: starts at `src`, ends at `dst`, and
each successive position is a walkable in-bounds 4-neighbour of the previous
one. -/
def ValidPath (m : MapModel) (p : List Pos) (src dst : Pos) : Prop :=
  p.head? = some src ∧ p.getLast? = some dst ∧
    List.Chain' (fun a b => b ∈ neighbors m a) p

/-- `BaseShared::get_next_resource`: scan `known_resources` in discovery
order, reserve and return the first unassigned entry. -/
def getNextResource : List (Pos × Cell) → List Pos → Option (Pos × Cell) × List Pos
  | [], asg => (none, asg)
  | (p, c) :: rest, asg =>
    if p ∈ asg then getNextResource rest asg else (some (p, c), asg ++ [p])

/-- `BaseShared::try_reserve_resource`. -/
def tryReserveResource (known : List (Pos × Cell)) (asg : List Pos) (p : Pos) :
    Bool × List Pos :=
  if !(known.any fun e => decide (e.1 = p)) then (false, asg)
  else if p ∈ asg then (false, asg)
  else (true, asg ++ [p])

/-- `u32::saturating_add`. -/
def satAdd (a b : Nat) : Nat := min (a + b) U32MAX

/-- `BaseStats`. -/
structure BStats where
  energyTotal : Nat
  crystalTotal : Nat
deriving DecidableEq, Repr

/-- `enum MessageToBase` from `base.rs`. -/
inductive MessageToBase
  | Discovery (pos : Pos) (cell : Cell)
  | Collected (kind : Cell) (amount : Nat)
  | ReachedBase (robotId : Nat) (unload : Option Cell)
deriving DecidableEq, Repr

/-- The `Collected` arm of `base_loop`: saturating add into the matching
total. -/
def applyCollected (s : BStats) (kind : Cell) (amount : Nat) : BStats :=
  match kind with
  | Cell.Energy _ => { s with energyTotal := satAdd s.energyTotal amount }
  | Cell.Crystal _ => { s with crystalTotal := satAdd s.crystalTotal amount }
  | _ => s

/-- One `base_loop` message, as it affects the statistics. The `ReachedBase`
arm performs an unchecked `+= 1` (wrap-around in release builds, panic in
debug builds) — modelled as wrap-around. -/
def stepStats (s : BStats) : MessageToBase → BStats
  | MessageToBase.Discovery _ _ => s
  | MessageToBase.Collected kind amount => applyCollected s kind amount
  | MessageToBase.ReachedBase _ unload =>
    match unload with
    | some (Cell.Energy _) => { s with energyTotal := (s.energyTotal + 1) % 2 ^ 32 }
    | some (Cell.Crystal _) => { s with crystalTotal := (s.crystalTotal + 1) % 2 ^ 32 }
    | _ => s

/-- Fold a sequence of `Collected {kind, amount}` events into the stats. -/
def processCollected (s : BStats) (l : List (Cell × Nat)) : BStats :=
  l.foldl (fun acc e => applyCollected acc e.1 e.2) s

/-- Saturating sum of a list of amounts. -/
def satSum (l : List Nat) : Nat := l.foldl satAdd 0

def isEnergyKind : Cell → Bool
  | Cell.Energy _ => true
  | _ => false

def isCrystalKind : Cell → Bool
  | Cell.Crystal _ => true
  | _ => false

/-- Amounts of the `Energy`-kind events, in order. -/
def energyAmounts (l : List (Cell × Nat)) : List Nat :=
  (l.filter fun e => isEnergyKind e.1).map Prod.snd

/-- Amounts of the `Crystal`-kind events, in order. -/
def crystalAmounts (l : List (Cell × Nat)) : List Nat :=
  (l.filter fun e => isCrystalKind e.1).map Prod.snd

/-- `RobotsShared::push_frontier_many`: drop already-visited positions, then
enqueue each remaining one unless it is already in the queue. -/
def pushFrontierMany (visited frontier items : List Pos) : List Pos :=
  (items.filter fun it => decide (it ∉ visited)).foldl
    (fun f it => if it ∈ f then f else f ++ [it]) frontier

/-- `RobotsShared::pop_frontier`. -/
def popFrontier (frontier : List Pos) : Option Pos × List Pos :=
  (frontier.head?, frontier.tail)

/-- All in-bounds grid positions, as a finite set. -/
def allPosFinset (m : MapModel) : Finset Pos :=
  Finset.range m.width ×ˢ Finset.range m.height

/-- The key universe of the `g_score` map: grid positions plus the start
position (the only possibly out-of-bounds key). -/
def univFinset (m : MapModel) (src : Pos) : Finset Pos :=
  insert src (allPosFinset m)

/-- Keys currently bound in the `g_score` map. -/
def gDom (m : MapModel) (src : Pos) (g : List (Pos × Nat)) : Finset Pos :=
  (univFinset m src).filter fun p => (alookup g p).isSome = true

/-- Keys currently bound in the `came_from` map. -/
def cDom (m : MapModel) (src : Pos) (came : List (Pos × Pos)) : Finset Pos :=
  (univFinset m src).filter fun p => (alookup came p).isSome = true

/-- Cap used by the termination potential: strictly above every g-score the
loop can record. -/
def bcap (m : MapModel) : Nat := m.width * m.height + 2

/-- Per-position contribution to the termination potential. -/
def phiAt (g : List (Pos × Nat)) (b : Nat) (p : Pos) : Nat :=
  match alookup g p with
  | none => b
  | some v => min v b

/-- Termination potential of the `g_score` map: every strict improvement
recorded by the loop lowers it. -/
def phi (m : MapModel) (src : Pos) (g : List (Pos × Nat)) : Nat :=
  (univFinset m src).sum (phiAt g (bcap m))

/-- Loop measure: potential plus open-heap size; strictly decreases at every
iteration. -/
def muA (m : MapModel) (src : Pos) (s : AState) : Nat :=
  phi m src s.gScore + s.openSet.length

/-- Structural invariant of the `find_path` loop state (searching from `src`
towards `t`): the start has g-score 0 and no parent; every recorded g-score
is bounded by the number of recorded keys and witnessed by an actual walk;
`came_from` links each key to a strictly cheaper neighbouring parent; every
heap node carries a recorded position whose current g-score is at most the
stored cost, with the stored estimate equal to stored cost plus heuristic;
and while the target has a g-score the heap holds a node for it. -/
structure InvB (m : MapModel) (src t : Pos) (s : AState) : Prop where
  gsrc : alookup s.gScore src = some 0
  keys_sub : ∀ p v, alookup s.gScore p = some v →
    p = src ∨ (p.1 < m.width ∧ p.2 < m.height)
  val_bound : ∀ p v, alookup s.gScore p = some v → v + 1 ≤ (gDom m src s.gScore).card
  came_src : alookup s.cameFrom src = none
  came_dom : ∀ p, p ≠ src → (alookup s.gScore p).isSome → (alookup s.cameFrom p).isSome
  came_step : ∀ p q, alookup s.cameFrom p = some q →
    p ∈ neighbors m q ∧
      ∃ vp vq, alookup s.gScore p = some vp ∧ alookup s.gScore q = some vq ∧ vq + 1 ≤ vp
  g_reach : ∀ p v, alookup s.gScore p = some v → ∃ n, n ≤ v ∧ stepsTo m src n p
  open_inv : ∀ nd ∈ s.openSet,
    ∃ v, alookup s.gScore nd.pos = some v ∧ v ≤ nd.cost ∧
      nd.est = nd.cost + heuristic nd.pos t
  open_to : (alookup s.gScore t).isSome → ∃ nd ∈ s.openSet, nd.pos = t

/-- Optimality invariant (the A* frontier property): whenever a position `u`
holds its true shortest distance as g-score, either all its outgoing edges
have been relaxed, or a heap node for `u` with that exact cost is still
pending. -/
def OI (m : MapModel) (src t : Pos) (s : AState) : Prop :=
  ∀ u du, alookup s.gScore u = some du → IsDist m src du u →
    (∀ w ∈ neighbors m u, ∃ vw, alookup s.gScore w = some vw ∧ vw ≤ du + 1) ∨
    (∃ nd ∈ s.openSet, nd.pos = u ∧ nd.cost = du)

/-- Concrete 1×1 grid holding a single obstacle. -/
def mObs : MapModel := { width := 1, height := 1, grid := [[Cell.Obstacle]] }

/-- Concrete 2×1 grid whose second cell is an obstacle. -/
def mWall : MapModel := { width := 2, height := 1, grid := [[Cell.Empty, Cell.Obstacle]] }

/-- Concrete obstacle-free 2×2 grid. -/
def mOpen2 : MapModel :=
  { width := 2, height := 2, grid := [[Cell.Empty, Cell.Empty], [Cell.Empty, Cell.Empty]] }

/-- Concrete obstacle-free 2×1 grid. -/
def mLine : MapModel := { width := 2, height := 1, grid := [[Cell.Empty, Cell.Empty]] }

/-- The grid holds no `Obstacle` cell (every cell passes `is_walkable`). -/
def NoObstacle (m : MapModel) : Bool :=
  m.grid.all fun row => row.all fun c => isWalkable c

/-! ## C1 — `try_collect_one` on a single cell -/

theorem collectState_inert {c : Cell} (h : tryCollectCell c = (none, c)) :
    ∀ n, collectState c n = c := by
  intro n
  induction n with
  | zero => rfl
  | succ n ih => simp [collectState, ih, h]

theorem successCount_inert {c : Cell} (h : tryCollectCell c = (none, c)) :
    ∀ n, successCount c n = 0 := by
  intro n
  induction n with
  | zero => rfl
  | succ n ih => simp [successCount, ih, collectResult, collectState_inert h, h]

theorem emptyTransCount_inert {c : Cell} (h : tryCollectCell c = (none, c)) :
    ∀ n, emptyTransCount c n = 0 := by
  intro n
  induction n with
  | zero => rfl
  | succ n ih => simp [emptyTransCount, ih, collectResult, collectState_inert h, h]

theorem collectState_energy {q : Nat} (hq : 0 < q) :
    ∀ n, collectState (Cell.Energy q) n =
      if n < q then Cell.Energy (q - n) else Cell.Empty := by
  intro n
  induction n with
  | zero => simp [collectState, hq]
  | succ n ih =>
    show (tryCollectCell (collectState (Cell.Energy q) n)).2 = _
    rw [ih]
    by_cases h : n < q
    · rw [if_pos h]
      by_cases h2 : n + 1 < q
      · rw [if_pos h2]
        have h3 : 0 < q - n := by omega
        have h5 : q - n - 1 = q - (n + 1) := by omega
        have h4 : ¬(q - (n + 1) = 0) := by omega
        simp only [tryCollectCell, if_pos h3, h5, if_neg h4]
      · rw [if_neg h2]
        have h3 : 0 < q - n := by omega
        have h4 : q - n - 1 = 0 := by omega
        simp [tryCollectCell, h3, h4]
    · rw [if_neg h, if_neg (by omega : ¬ n + 1 < q)]
      simp [tryCollectCell]

theorem collectResult_energy {q : Nat} (hq : 0 < q) :
    ∀ n, collectResult (Cell.Energy q) n =
      if n < q then some (Cell.Energy 1) else none := by
  intro n
  rw [collectResult, collectState_energy hq]
  by_cases h : n < q
  · have h3 : 0 < q - n := by omega
    simp [h, tryCollectCell, h3]
  · simp [h, tryCollectCell]

theorem successCount_energy {q : Nat} (hq : 0 < q) :
    ∀ n, successCount (Cell.Energy q) n = min n q := by
  intro n
  induction n with
  | zero => simp [successCount]
  | succ n ih =>
    show successCount (Cell.Energy q) n + _ = _
    rw [ih, collectResult_energy hq]
    by_cases h : n < q <;> simp [h] <;> omega

theorem emptyTransCount_energy {q : Nat} (hq : 0 < q) :
    ∀ n, emptyTransCount (Cell.Energy q) n = if q ≤ n then 1 else 0 := by
  intro n
  induction n with
  | zero =>
    show 0 = _
    rw [if_neg (by omega)]
  | succ n ih =>
    show emptyTransCount (Cell.Energy q) n + _ = _
    rw [ih, collectResult_energy hq, collectState_energy hq]
    by_cases h2 : n + 1 < q
    · have h : n < q := by omega
      have hne : Cell.Energy (q - (n + 1)) ≠ Cell.Empty := by simp
      simp only [if_pos h2, if_pos h]
      rw [if_neg (show ¬((some (Cell.Energy 1)).isSome = true ∧ Cell.Energy (q - (n + 1)) = Cell.Empty) by simp),
        if_neg (show ¬ q ≤ n by omega), if_neg (show ¬ q ≤ n + 1 by omega)]
    · by_cases h : n < q
      · simp only [if_neg h2, if_pos h]
        rw [if_pos (show (some (Cell.Energy 1)).isSome = true ∧ True from ⟨rfl, trivial⟩),
          if_neg (show ¬ q ≤ n by omega), if_pos (show q ≤ n + 1 by omega)]
      · simp only [if_neg h2, if_neg h]
        rw [if_neg (show ¬((none : Option Cell).isSome = true ∧ True) by simp),
          if_pos (show q ≤ n by omega), if_pos (show q ≤ n + 1 by omega)]

theorem collectState_crystal {q : Nat} (hq : 0 < q) :
    ∀ n, collectState (Cell.Crystal q) n =
      if n < q then Cell.Crystal (q - n) else Cell.Empty := by
  intro n
  induction n with
  | zero => simp [collectState, hq]
  | succ n ih =>
    show (tryCollectCell (collectState (Cell.Crystal q) n)).2 = _
    rw [ih]
    by_cases h : n < q
    · rw [if_pos h]
      by_cases h2 : n + 1 < q
      · rw [if_pos h2]
        have h3 : 0 < q - n := by omega
        have h5 : q - n - 1 = q - (n + 1) := by omega
        have h4 : ¬(q - (n + 1) = 0) := by omega
        simp only [tryCollectCell, if_pos h3, h5, if_neg h4]
      · rw [if_neg h2]
        have h3 : 0 < q - n := by omega
        have h4 : q - n - 1 = 0 := by omega
        simp [tryCollectCell, h3, h4]
    · rw [if_neg h, if_neg (by omega : ¬ n + 1 < q)]
      simp [tryCollectCell]

theorem collectResult_crystal {q : Nat} (hq : 0 < q) :
    ∀ n, collectResult (Cell.Crystal q) n =
      if n < q then some (Cell.Crystal 1) else none := by
  intro n
  rw [collectResult, collectState_crystal hq]
  by_cases h : n < q
  · have h3 : 0 < q - n := by omega
    simp [h, tryCollectCell, h3]
  · simp [h, tryCollectCell]

theorem successCount_crystal {q : Nat} (hq : 0 < q) :
    ∀ n, successCount (Cell.Crystal q) n = min n q := by
  intro n
  induction n with
  | zero => simp [successCount]
  | succ n ih =>
    show successCount (Cell.Crystal q) n + _ = _
    rw [ih, collectResult_crystal hq]
    by_cases h : n < q <;> simp [h] <;> omega

theorem emptyTransCount_crystal {q : Nat} (hq : 0 < q) :
    ∀ n, emptyTransCount (Cell.Crystal q) n = if q ≤ n then 1 else 0 := by
  intro n
  induction n with
  | zero =>
    show 0 = _
    rw [if_neg (by omega)]
  | succ n ih =>
    show emptyTransCount (Cell.Crystal q) n + _ = _
    rw [ih, collectResult_crystal hq, collectState_crystal hq]
    by_cases h2 : n + 1 < q
    · have h : n < q := by omega
      have hne : Cell.Crystal (q - (n + 1)) ≠ Cell.Empty := by simp
      simp only [if_pos h2, if_pos h]
      rw [if_neg (show ¬((some (Cell.Crystal 1)).isSome = true ∧ Cell.Crystal (q - (n + 1)) = Cell.Empty) by simp),
        if_neg (show ¬ q ≤ n by omega), if_neg (show ¬ q ≤ n + 1 by omega)]
    · by_cases h : n < q
      · simp only [if_neg h2, if_pos h]
        rw [if_pos (show (some (Cell.Crystal 1)).isSome = true ∧ True from ⟨rfl, trivial⟩),
          if_neg (show ¬ q ≤ n by omega), if_pos (show q ≤ n + 1 by omega)]
      · simp only [if_neg h2, if_neg h]
        rw [if_neg (show ¬((none : Option Cell).isSome = true ∧ True) by simp),
          if_pos (show q ≤ n by omega), if_pos (show q ≤ n + 1 by omega)]

/-- C1: a `try_collect_one` call returns `Some(Energy(1))` (resp.
`Some(Crystal(1))`) and decrements the quantity by exactly one if and only if
the cell is `Energy(q)` (resp. `Crystal(q)`) with `q > 0` (the other cases —
`Empty`, `Obstacle`, `Base`, and zero-quantity resources — return `None` and
leave the cell unchanged); the cell becomes `Empty` exactly when the quantity
reaches zero; over any call sequence the number of successful collections
never exceeds the initial quantity, and exactly one call observes the
transition to `Empty` (namely once the initial quantity was positive and at
least that many calls have been made). -/
theorem C1_try_collect_one :
    (∀ q, tryCollectCell (Cell.Energy (q + 1)) =
      (some (Cell.Energy 1), if q = 0 then Cell.Empty else Cell.Energy q)) ∧
    (∀ q, tryCollectCell (Cell.Crystal (q + 1)) =
      (some (Cell.Crystal 1), if q = 0 then Cell.Empty else Cell.Crystal q)) ∧
    tryCollectCell Cell.Empty = (none, Cell.Empty) ∧
    tryCollectCell Cell.Obstacle = (none, Cell.Obstacle) ∧
    tryCollectCell Cell.Base = (none, Cell.Base) ∧
    tryCollectCell (Cell.Energy 0) = (none, Cell.Energy 0) ∧
    tryCollectCell (Cell.Crystal 0) = (none, Cell.Crystal 0) ∧
    (∀ c n, successCount c n ≤ initQty c) ∧
    (∀ c n, emptyTransCount c n ≤ 1) ∧
    (∀ c n, emptyTransCount c n = 1 ↔ 0 < initQty c ∧ initQty c ≤ n) := by
  refine ⟨?_, ?_, rfl, rfl, rfl, rfl, rfl, ?_, ?_, ?_⟩
  · intro q
    simp [tryCollectCell]
  · intro q
    simp [tryCollectCell]
  · intro c n
    cases c with
    | Empty => simp [@successCount_inert Cell.Empty rfl]
    | Obstacle => simp [@successCount_inert Cell.Obstacle rfl]
    | Base => simp [@successCount_inert Cell.Base rfl]
    | Energy q =>
      rcases Nat.eq_zero_or_pos q with h | h
      · subst h
        simp [@successCount_inert (Cell.Energy 0) rfl]
      · rw [successCount_energy h]
        simp only [initQty]
        omega
    | Crystal q =>
      rcases Nat.eq_zero_or_pos q with h | h
      · subst h
        simp [@successCount_inert (Cell.Crystal 0) rfl]
      · rw [successCount_crystal h]
        simp only [initQty]
        omega
  · intro c n
    cases c with
    | Empty => simp [@emptyTransCount_inert Cell.Empty rfl]
    | Obstacle => simp [@emptyTransCount_inert Cell.Obstacle rfl]
    | Base => simp [@emptyTransCount_inert Cell.Base rfl]
    | Energy q =>
      rcases Nat.eq_zero_or_pos q with h | h
      · subst h
        simp [@emptyTransCount_inert (Cell.Energy 0) rfl]
      · rw [emptyTransCount_energy h]
        split_ifs <;> omega
    | Crystal q =>
      rcases Nat.eq_zero_or_pos q with h | h
      · subst h
        simp [@emptyTransCount_inert (Cell.Crystal 0) rfl]
      · rw [emptyTransCount_crystal h]
        split_ifs <;> omega
  · intro c n
    cases c with
    | Empty => simp [@emptyTransCount_inert Cell.Empty rfl, initQty]
    | Obstacle => simp [@emptyTransCount_inert Cell.Obstacle rfl, initQty]
    | Base => simp [@emptyTransCount_inert Cell.Base rfl, initQty]
    | Energy q =>
      rcases Nat.eq_zero_or_pos q with h | h
      · subst h
        simp [@emptyTransCount_inert (Cell.Energy 0) rfl, initQty]
      · rw [emptyTransCount_energy h]
        simp only [initQty]
        split_ifs with hif
        · simp [h, hif]
        · simp only [OfNat.zero_ne_ofNat, false_iff]
          omega
    | Crystal q =>
      rcases Nat.eq_zero_or_pos q with h | h
      · subst h
        simp [@emptyTransCount_inert (Cell.Crystal 0) rfl, initQty]
      · rw [emptyTransCount_crystal h]
        simp only [initQty]
        split_ifs with hif
        · simp [h, hif]
        · simp only [OfNat.zero_ne_ofNat, false_iff]
          omega

/-! ## C2 / C7 — `BaseShared` reservation table -/

theorem known_any_iff (known : List (Pos × Cell)) (p : Pos) :
    (known.any fun e => decide (e.1 = p)) = true ↔ p ∈ known.map Prod.fst := by
  rw [List.any_eq_true, List.mem_map]
  constructor
  · rintro ⟨e, he, hd⟩
    rw [decide_eq_true_eq] at hd
    exact ⟨e, he, hd⟩
  · rintro ⟨e, he, hd⟩
    exact ⟨e, he, by simp [hd]⟩

theorem known_mem_iff (known : List (Pos × Cell)) (p : Pos) :
    p ∈ known.map Prod.fst ↔ ∃ c, (p, c) ∈ known := by
  rw [List.mem_map]
  constructor
  · rintro ⟨e, he, hd⟩
    refine ⟨e.2, ?_⟩
    rw [← hd, Prod.mk.eta]
    exact he
  · rintro ⟨c, hc⟩
    exact ⟨(p, c), hc, rfl⟩

theorem tryReserveResource_eq (known : List (Pos × Cell)) (asg : List Pos) (p : Pos) :
    tryReserveResource known asg p =
      if p ∈ known.map Prod.fst ∧ p ∉ asg then (true, asg ++ [p]) else (false, asg) := by
  rw [tryReserveResource]
  by_cases hb : (known.any fun e => decide (e.1 = p)) = true
  · have h1 : p ∈ known.map Prod.fst := (known_any_iff known p).mp hb
    rw [hb]
    by_cases h2 : p ∈ asg
    · rw [if_neg (show ¬((!true) = true) by simp), if_pos h2, if_neg (fun hc => hc.2 h2)]
    · rw [if_neg (show ¬((!true) = true) by simp), if_neg h2, if_pos ⟨h1, h2⟩]
  · have h1 : p ∉ known.map Prod.fst := fun hc => hb ((known_any_iff known p).mpr hc)
    rw [Bool.not_eq_true] at hb
    rw [hb, if_pos (show (!false) = true by simp), if_neg (fun hc => h1 hc.1)]

/-- C2: `try_reserve_resource(pos)` returns `true` iff `pos` is in the known
table and not yet assigned; on `true` it appends `pos` to the assigned set
and otherwise leaves it unchanged; consequently for a known unreserved `pos`
two consecutive reservation attempts return `true` exactly once, and an
unknown or already-reserved `pos` always yields `false`. -/
theorem C2_try_reserve_resource (known : List (Pos × Cell)) (asg : List Pos) (p : Pos) :
    ((tryReserveResource known asg p).1 = true ↔ (∃ c, (p, c) ∈ known) ∧ p ∉ asg) ∧
    ((tryReserveResource known asg p).1 = true →
      (tryReserveResource known asg p).2 = asg ++ [p]) ∧
    ((tryReserveResource known asg p).1 = false →
      (tryReserveResource known asg p).2 = asg) ∧
    ((∃ c, (p, c) ∈ known) → p ∉ asg →
      (tryReserveResource known asg p).1 = true ∧
      (tryReserveResource known (tryReserveResource known asg p).2 p).1 = false) ∧
    (((¬ ∃ c, (p, c) ∈ known) ∨ p ∈ asg) → (tryReserveResource known asg p).1 = false) := by
  have hiff := known_mem_iff known p
  rw [tryReserveResource_eq]
  by_cases h : p ∈ known.map Prod.fst ∧ p ∉ asg
  · have hex : (∃ c, (p, c) ∈ known) ∧ p ∉ asg := ⟨hiff.mp h.1, h.2⟩
    rw [if_pos h]
    refine ⟨by simp [hex], fun _ => rfl, by simp, fun _ _ => ⟨rfl, ?_⟩,
      fun hc => absurd hex (by tauto)⟩
    rw [tryReserveResource_eq,
      if_neg (show ¬(p ∈ known.map Prod.fst ∧ p ∉ asg ++ [p]) from fun hc => hc.2 (by simp))]
  · have hex : ¬((∃ c, (p, c) ∈ known) ∧ p ∉ asg) := fun hc => h ⟨hiff.mpr hc.1, hc.2⟩
    rw [if_neg h]
    exact ⟨by simp [hex], by simp, fun _ => rfl,
      fun h1 h2 => absurd ⟨h1, h2⟩ hex, fun _ => rfl⟩

theorem C2_witness :
    (tryReserveResource [((3, 3), Cell.Energy 7)] [] (3, 3)).1 = true ∧
    (tryReserveResource [((3, 3), Cell.Energy 7)]
      (tryReserveResource [((3, 3), Cell.Energy 7)] [] (3, 3)).2 (3, 3)).1 = false :=
  (C2_try_reserve_resource [((3, 3), Cell.Energy 7)] [] (3, 3)).2.2.2.1
    ⟨Cell.Energy 7, by decide⟩ (by decide)

/-- C7: `get_next_resource` scans the known table in discovery order and
returns (and assigns) the first entry whose position is unassigned; it
returns `None` (leaving the assigned set unchanged) exactly when every known
entry is already assigned, and no position other than the returned one is
added. -/
theorem C7_get_next_resource (known : List (Pos × Cell)) (asg : List Pos) :
    ((getNextResource known asg).1 = none ↔ ∀ e ∈ known, e.1 ∈ asg) ∧
    ((getNextResource known asg).1 = none → (getNextResource known asg).2 = asg) ∧
    (∀ p c, (getNextResource known asg).1 = some (p, c) →
      p ∉ asg ∧ (getNextResource known asg).2 = asg ++ [p] ∧
      ∃ i : Nat, known[i]? = some (p, c) ∧
        ∀ j : Nat, j < i → ∀ e : Pos × Cell, known[j]? = some e → e.1 ∈ asg) := by
  induction known with
  | nil => exact ⟨by simp [getNextResource], fun _ => rfl, fun p c h => by simp [getNextResource] at h⟩
  | cons e rest ih =>
    obtain ⟨p0, c0⟩ := e
    by_cases h : p0 ∈ asg
    · have hstep : getNextResource ((p0, c0) :: rest) asg = getNextResource rest asg := by
        rw [getNextResource, if_pos h]
      rw [hstep]
      refine ⟨?_, ih.2.1, fun p c hsome => ?_⟩
      · rw [ih.1]
        constructor
        · intro hall e he
          rcases List.mem_cons.mp he with he | he
          · rw [he]
            exact h
          · exact hall e he
        · intro hall e he
          exact hall e (List.mem_cons_of_mem _ he)
      · obtain ⟨hnot, hasg, i, hi, hfirst⟩ := ih.2.2 p c hsome
        refine ⟨hnot, hasg, i + 1, by simpa using hi, ?_⟩
        intro j hj f hf
        cases j with
        | zero =>
          simp only [List.getElem?_cons_zero, Option.some_inj] at hf
          rw [← hf]
          exact h
        | succ j =>
          rw [List.getElem?_cons_succ] at hf
          exact hfirst j (by omega) f hf
    · have hstep : getNextResource ((p0, c0) :: rest) asg = (some (p0, c0), asg ++ [p0]) := by
        rw [getNextResource, if_neg h]
      rw [hstep]
      refine ⟨by simp [h], by simp, fun p c hsome => ?_⟩
      simp only [Option.some_inj, Prod.mk.injEq] at hsome
      obtain ⟨hp, hc⟩ := hsome
      subst hp
      subst hc
      exact ⟨h, rfl, 0, by simp, by omega⟩

theorem C7_witness :
    (0, 0) ∉ ([] : List Pos) ∧
    (getNextResource [((0, 0), Cell.Energy 5), ((1, 1), Cell.Crystal 3)] []).2 =
      [] ++ [(0, 0)] ∧
    ∃ i : Nat, [((0, 0), Cell.Energy 5), ((1, 1), Cell.Crystal 3)][i]? =
        some ((0, 0), Cell.Energy 5) ∧
      ∀ j : Nat, j < i → ∀ e : Pos × Cell,
        [((0, 0), Cell.Energy 5), ((1, 1), Cell.Crystal 3)][j]? = some e →
          e.1 ∈ ([] : List Pos) :=
  (C7_get_next_resource [((0, 0), Cell.Energy 5), ((1, 1), Cell.Crystal 3)] []).2.2
    (0, 0) (Cell.Energy 5) (by decide)

/-! ## C3 / C8 — base statistics -/

theorem foldl_satAdd_le : ∀ (l : List Nat) (a : Nat), a ≤ U32MAX → l.foldl satAdd a ≤ U32MAX
  | [], _, h => h
  | b :: t, a, _ => foldl_satAdd_le t (satAdd a b) (min_le_right _ _)

theorem processCollected_totals :
    ∀ (l : List (Cell × Nat)) (s : BStats),
      (processCollected s l).energyTotal = (energyAmounts l).foldl satAdd s.energyTotal ∧
      (processCollected s l).crystalTotal = (crystalAmounts l).foldl satAdd s.crystalTotal := by
  intro l
  induction l with
  | nil => exact fun s => ⟨rfl, rfl⟩
  | cons e t ih =>
    intro s
    obtain ⟨k, a⟩ := e
    have hstep : processCollected s ((k, a) :: t) = processCollected (applyCollected s k a) t :=
      rfl
    rw [hstep]
    obtain ⟨ih1, ih2⟩ := ih (applyCollected s k a)
    cases k with
    | Energy q =>
      rw [ih1, ih2]
      exact ⟨by simp [energyAmounts, isEnergyKind, applyCollected],
        by simp [crystalAmounts, isCrystalKind, applyCollected]⟩
    | Crystal q =>
      rw [ih1, ih2]
      exact ⟨by simp [energyAmounts, isEnergyKind, applyCollected],
        by simp [crystalAmounts, isCrystalKind, applyCollected]⟩
    | Empty =>
      rw [ih1, ih2]
      exact ⟨by simp [energyAmounts, isEnergyKind, applyCollected],
        by simp [crystalAmounts, isCrystalKind, applyCollected]⟩
    | Obstacle =>
      rw [ih1, ih2]
      exact ⟨by simp [energyAmounts, isEnergyKind, applyCollected],
        by simp [crystalAmounts, isCrystalKind, applyCollected]⟩
    | Base =>
      rw [ih1, ih2]
      exact ⟨by simp [energyAmounts, isEnergyKind, applyCollected],
        by simp [crystalAmounts, isCrystalKind, applyCollected]⟩

/-- C3: after the base loop processes any sequence of `Collected` events
starting from zero totals, `energy_total` (resp. `crystal_total`) equals the
saturating sum of the `amount` fields of the `Energy`-kind (resp.
`Crystal`-kind) events; events of any other kind leave both totals unchanged,
and the totals stay within `u32` range (saturating arithmetic, no overflow
even at `u32::MAX`). -/
theorem C3_collected_totals :
    (∀ l : List (Cell × Nat),
      (processCollected { energyTotal := 0, crystalTotal := 0 } l).energyTotal =
        satSum (energyAmounts l) ∧
      (processCollected { energyTotal := 0, crystalTotal := 0 } l).crystalTotal =
        satSum (crystalAmounts l) ∧
      (processCollected { energyTotal := 0, crystalTotal := 0 } l).energyTotal ≤ U32MAX ∧
      (processCollected { energyTotal := 0, crystalTotal := 0 } l).crystalTotal ≤ U32MAX) ∧
    (∀ (s : BStats) (a : Nat), applyCollected s Cell.Empty a = s ∧
      applyCollected s Cell.Obstacle a = s ∧ applyCollected s Cell.Base a = s) := by
  refine ⟨fun l => ?_, fun s a => ⟨rfl, rfl, rfl⟩⟩
  obtain ⟨h1, h2⟩ := processCollected_totals l { energyTotal := 0, crystalTotal := 0 }
  refine ⟨h1.trans rfl, h2.trans rfl, ?_, ?_⟩
  · rw [h1]
    exact foldl_satAdd_le _ _ (Nat.zero_le _)
  · rw [h2]
    exact foldl_satAdd_le _ _ (Nat.zero_le _)

/-- C8 (code-bug evidence): the `ReachedBase` arm increments with an
unchecked `+= 1`; at `energy_total = u32::MAX` it wraps to 0 in release
builds (and panics in debug builds), strictly decreasing the counter and
violating the claimed monotonicity. -/
theorem C8_reached_base_overflow :
    (stepStats { energyTotal := U32MAX, crystalTotal := 0 }
        (MessageToBase.ReachedBase 0 (some (Cell.Energy 1)))).energyTotal = 0 ∧
    (stepStats { energyTotal := U32MAX, crystalTotal := 0 }
        (MessageToBase.ReachedBase 0 (some (Cell.Energy 1)))).energyTotal < U32MAX := by
  have h : (stepStats { energyTotal := U32MAX, crystalTotal := 0 }
      (MessageToBase.ReachedBase 0 (some (Cell.Energy 1)))).energyTotal = 0 := by
    show (U32MAX + 1) % 2 ^ 32 = 0
    norm_num [U32MAX]
  refine ⟨h, ?_⟩
  rw [h]
  norm_num [U32MAX]

/-! ## C9 — frontier requeue -/

theorem foldPush_append :
    ∀ (l q : List Pos), l.Nodup → (∀ x ∈ l, x ∉ q) →
      l.foldl (fun f it => if it ∈ f then f else f ++ [it]) q = q ++ l := by
  intro l
  induction l with
  | nil =>
    intro q _ _
    simp
  | cons x t ih =>
    intro q hnd hdisj
    rw [List.foldl_cons, if_neg (hdisj x (by simp))]
    rw [ih (q ++ [x]) (List.nodup_cons.mp hnd).2 ?_]
    · simp
    · intro y hy hmem
      rcases List.mem_append.mp hmem with hcase | hcase
      · exact hdisj y (by simp [hy]) hcase
      · rw [List.mem_singleton] at hcase
        subst hcase
        exact (List.nodup_cons.mp hnd).1 hy

/-- C9: if `k` candidates are popped off the frontier (its first `k`
entries), none of them is visited, none duplicates another popped candidate,
and none is still pending in the queue, then requeueing all of them through
`push_frontier_many` restores a frontier holding exactly the original
candidates — same total count, nothing lost, nothing duplicated. -/
theorem C9_requeue_preserves_frontier (visited F : List Pos) (k : Nat)
    (hnd : (F.take k).Nodup)
    (hq : ∀ c ∈ F.take k, c ∉ F.drop k)
    (hv : ∀ c ∈ F.take k, c ∉ visited) :
    pushFrontierMany visited (F.drop k) (F.take k) = F.drop k ++ F.take k ∧
    (pushFrontierMany visited (F.drop k) (F.take k)).length = F.length ∧
    (pushFrontierMany visited (F.drop k) (F.take k)).Perm F := by
  have hfilter : (F.take k).filter (fun it => decide (it ∉ visited)) = F.take k := by
    rw [List.filter_eq_self]
    intro a ha
    simpa using hv a ha
  have h1 : pushFrontierMany visited (F.drop k) (F.take k) = F.drop k ++ F.take k := by
    rw [pushFrontierMany, hfilter]
    exact foldPush_append _ _ hnd hq
  refine ⟨h1, ?_, ?_⟩
  · rw [h1, List.length_append, List.length_drop, List.length_take]
    omega
  · rw [h1]
    have hp := @List.perm_append_comm _ (F.drop k) (F.take k)
    rw [List.take_append_drop] at hp
    exact hp

theorem C9_witness :
    pushFrontierMany [(9, 9)] ([(1, 1), (2, 2), (3, 3)].drop 2)
        ([(1, 1), (2, 2), (3, 3)].take 2) =
      [(1, 1), (2, 2), (3, 3)].drop 2 ++ [(1, 1), (2, 2), (3, 3)].take 2 ∧
    (pushFrontierMany [(9, 9)] ([(1, 1), (2, 2), (3, 3)].drop 2)
        ([(1, 1), (2, 2), (3, 3)].take 2)).length = [(1, 1), (2, 2), (3, 3)].length ∧
    (pushFrontierMany [(9, 9)] ([(1, 1), (2, 2), (3, 3)].drop 2)
        ([(1, 1), (2, 2), (3, 3)].take 2)).Perm [(1, 1), (2, 2), (3, 3)] :=
  C9_requeue_preserves_frontier [(9, 9)] [(1, 1), (2, 2), (3, 3)] 2
    (by decide) (by decide) (by decide)

/-! ## C10 — unchecked grid indexing -/

/-- C10: on a well-formed `width × height` grid, `get_cell`, `set_cell` and
`try_collect_one` index without bounds checking: any `x ≥ width` or
`y ≥ height` panics (modelled as `none`), while all in-bounds coordinates
succeed — in-bounds coordinates are an unstated precondition of the grid
API. -/
theorem C10_grid_bounds (m : MapModel) (x y : Nat) (c : Cell) (h : WF m) :
    ((m.width ≤ x ∨ m.height ≤ y) →
      getCell m x y = none ∧ setCell m x y c = none ∧ tryCollectOneGrid m x y = none) ∧
    (x < m.width → y < m.height →
      (getCell m x y).isSome ∧ (setCell m x y c).isSome ∧
      (tryCollectOneGrid m x y).isSome) := by
  obtain ⟨hh, hw⟩ := h
  constructor
  · intro hxy
    by_cases hy : y < m.grid.length
    · have hrow : m.grid[y]? = some m.grid[y] := List.getElem?_eq_getElem hy
      have hlen : m.grid[y].length = m.width := hw _ (List.getElem_mem hy)
      have hx : m.width ≤ x := by omega
      have hnone : m.grid[y][x]? = none := by
        rw [List.getElem?_eq_none_iff]
        omega
      refine ⟨?_, ?_, ?_⟩
      · simp [getCell, hrow, hnone]
      · simp only [setCell, hrow]
        rw [if_neg (show ¬ x < m.grid[y].length by omega)]
      · simp [tryCollectOneGrid, hrow, hnone]
    · have hrow : m.grid[y]? = none := by
        rw [List.getElem?_eq_none_iff]
        omega
      exact ⟨by simp [getCell, hrow], by simp [setCell, hrow],
        by simp [tryCollectOneGrid, hrow]⟩
  · intro hx hy
    have hyl : y < m.grid.length := by omega
    have hrow : m.grid[y]? = some m.grid[y] := List.getElem?_eq_getElem hyl
    have hlen : m.grid[y].length = m.width := hw _ (List.getElem_mem hyl)
    have hxl : x < m.grid[y].length := by omega
    have hcell : m.grid[y][x]? = some m.grid[y][x] := List.getElem?_eq_getElem hxl
    refine ⟨?_, ?_, ?_⟩
    · simp [getCell, hrow, hcell]
    · simp only [setCell, hrow]
      rw [if_pos hxl]
      simp
    · simp [tryCollectOneGrid, hrow, hcell]

theorem C10_witness :
    (getCell mWall 5 0 = none ∧ setCell mWall 5 0 Cell.Empty = none ∧
      tryCollectOneGrid mWall 5 0 = none) ∧
    ((getCell mWall 0 0).isSome ∧ (setCell mWall 0 0 Cell.Empty).isSome ∧
      (tryCollectOneGrid mWall 0 0).isSome) :=
  ⟨(C10_grid_bounds mWall 5 0 Cell.Empty ⟨rfl, by decide⟩).1 (Or.inl (by decide)),
    (C10_grid_bounds mWall 0 0 Cell.Empty ⟨rfl, by decide⟩).2 (by decide) (by decide)⟩

/-! ## C5 — counterexample part -/

/-- C5 counterexample: with `from = to` on an `Obstacle` cell, `find_path`
returns `Some [from]` (the early `from == to` exit precedes any obstacle
check), not `None` as the claim requires for an `Obstacle` target. -/
theorem C5_counterexample :
    getCell mObs 0 0 = some Cell.Obstacle ∧
    findPath mObs (0, 0) (0, 0) = some [(0, 0)] ∧
    findPath mObs (0, 0) (0, 0) ≠ none := by
  refine ⟨rfl, by decide, by decide⟩

/-! ## A* groundwork: geometry and `neighbors` -/

theorem heuristic_self (a : Pos) : heuristic a a = 0 := by
  simp [heuristic]

theorem heuristic_triangle (a b c : Pos) : heuristic a c ≤ heuristic a b + heuristic b c := by
  simp only [heuristic]
  omega

theorem nbCand_eq_some {m : MapModel} {p : Pos} {d : Int × Int} {q : Pos}
    (h : nbCand m p d = some q) :
    q.1 = ((p.1 : Int) + d.1).toNat ∧ q.2 = ((p.2 : Int) + d.2).toNat ∧
    0 ≤ (p.1 : Int) + d.1 ∧ 0 ≤ (p.2 : Int) + d.2 ∧
    q.1 < m.width ∧ q.2 < m.height ∧
    ∃ c, getCell m q.1 q.2 = some c ∧ isWalkable c = true := by
  simp only [nbCand] at h
  split at h
  · rename_i hib
    split at h
    · rename_i c hgc
      split at h
      · rename_i hw
        simp only [Option.some_inj] at h
        subst h
        simp only [inBounds, Bool.and_eq_true, decide_eq_true_eq] at hib
        exact ⟨rfl, rfl, hib.1.1.1, hib.1.1.2, hib.1.2, hib.2, c, hgc, hw⟩
      · exact absurd h (by simp)
    · exact absurd h (by simp)
  · exact absurd h (by simp)

theorem nbCand_eq_some_of {m : MapModel} {p : Pos} {d : Int × Int} {q : Pos}
    (h1 : 0 ≤ (p.1 : Int) + d.1) (h2 : 0 ≤ (p.2 : Int) + d.2)
    (h3 : ((p.1 : Int) + d.1).toNat = q.1) (h4 : ((p.2 : Int) + d.2).toNat = q.2)
    (h5 : q.1 < m.width) (h6 : q.2 < m.height)
    (h7 : ∃ c, getCell m q.1 q.2 = some c ∧ isWalkable c = true) :
    nbCand m p d = some q := by
  obtain ⟨c, hc, hw⟩ := h7
  have hib : inBounds m ((p.1 : Int) + d.1) ((p.2 : Int) + d.2) = true := by
    simp only [inBounds, Bool.and_eq_true, decide_eq_true_eq]
    omega
  simp only [nbCand]
  rw [if_pos hib, h3, h4]
  simp only [hc]
  rw [if_pos hw, Prod.mk.eta]

theorem mem_neighbors_iff {m : MapModel} {p q : Pos} :
    q ∈ neighbors m p ↔
      q.1 < m.width ∧ q.2 < m.height ∧
      (∃ c, getCell m q.1 q.2 = some c ∧ isWalkable c = true) ∧
      ((q.1 = p.1 + 1 ∧ q.2 = p.2) ∨ (q.1 + 1 = p.1 ∧ q.2 = p.2) ∨
       (q.1 = p.1 ∧ q.2 = p.2 + 1) ∨ (q.1 = p.1 ∧ q.2 + 1 = p.2)) := by
  constructor
  · intro hmem
    rw [neighbors, List.mem_filterMap] at hmem
    obtain ⟨d, hd, hsome⟩ := hmem
    have hc := nbCand_eq_some hsome
    rw [dirs] at hd
    simp only [List.mem_cons, List.not_mem_nil, or_false] at hd
    obtain ⟨e1, e2, e3, e4, e5, e6, e7⟩ := hc
    rcases hd with rfl | rfl | rfl | rfl <;>
      simp only at e1 e2 e3 e4 <;>
      exact ⟨e5, e6, e7, by omega⟩
  · rintro ⟨hqw, hqh, hcell, hadj⟩
    rw [neighbors, List.mem_filterMap]
    rcases hadj with ⟨h1, h2⟩ | ⟨h1, h2⟩ | ⟨h1, h2⟩ | ⟨h1, h2⟩
    · exact ⟨(1, 0), by rw [dirs]; simp,
        nbCand_eq_some_of (by omega) (by omega) (by omega) (by omega) hqw hqh hcell⟩
    · exact ⟨(-1, 0), by rw [dirs]; simp,
        nbCand_eq_some_of (by omega) (by omega) (by omega) (by omega) hqw hqh hcell⟩
    · exact ⟨(0, 1), by rw [dirs]; simp,
        nbCand_eq_some_of (by omega) (by omega) (by omega) (by omega) hqw hqh hcell⟩
    · exact ⟨(0, -1), by rw [dirs]; simp,
        nbCand_eq_some_of (by omega) (by omega) (by omega) (by omega) hqw hqh hcell⟩

theorem heuristic_eq_one_of_mem {m : MapModel} {u v : Pos} (h : v ∈ neighbors m u) :
    heuristic u v = 1 := by
  rcases (mem_neighbors_iff.mp h).2.2.2 with ⟨h1, h2⟩ | ⟨h1, h2⟩ | ⟨h1, h2⟩ | ⟨h1, h2⟩ <;>
    · simp only [heuristic]
      omega

theorem not_mem_neighbors_self (m : MapModel) (p : Pos) : p ∉ neighbors m p := by
  intro h
  have h1 := heuristic_eq_one_of_mem h
  rw [heuristic_self] at h1
  exact absurd h1 (by omega)

theorem ne_of_mem_neighbors {m : MapModel} {u v : Pos} (h : v ∈ neighbors m u) : v ≠ u := by
  intro he
  subst he
  exact not_mem_neighbors_self m v h

theorem bounds_of_mem_neighbors {m : MapModel} {u v : Pos} (h : v ∈ neighbors m u) :
    v.1 < m.width ∧ v.2 < m.height :=
  ⟨(mem_neighbors_iff.mp h).1, (mem_neighbors_iff.mp h).2.1⟩

theorem nbCand_inj {m : MapModel} {p : Pos} {d1 d2 : Int × Int} {q : Pos}
    (h1 : nbCand m p d1 = some q) (h2 : nbCand m p d2 = some q) : d1 = d2 := by
  have a1 := nbCand_eq_some h1
  have a2 := nbCand_eq_some h2
  obtain ⟨x1, y1⟩ := d1
  obtain ⟨x2, y2⟩ := d2
  simp only at a1 a2
  have e1 : x1 = x2 := by omega
  have e2 : y1 = y2 := by omega
  rw [e1, e2]

theorem neighbors_nodup (m : MapModel) (p : Pos) : (neighbors m p).Nodup := by
  rw [neighbors]
  refine List.Nodup.filterMap (fun a b c ha hb => nbCand_inj ha hb) ?_
  rw [dirs]
  decide

/-! ## A* groundwork: walks and distances -/

theorem stepsTo_succ_iff {m : MapModel} {src v : Pos} {n : Nat} :
    stepsTo m src (n + 1) v ↔ ∃ u, stepsTo m src n u ∧ v ∈ neighbors m u := Iff.rfl

theorem stepsTo_one_of_mem {m : MapModel} {src v : Pos} (h : v ∈ neighbors m src) :
    stepsTo m src 1 v :=
  ⟨src, rfl, h⟩

theorem stepsTo_concat {m : MapModel} {src u : Pos} :
    ∀ {k : Nat} {v : Pos} {n : Nat}, stepsTo m src n u → stepsTo m u k v →
      stepsTo m src (n + k) v := by
  intro k
  induction k with
  | zero =>
    intro v n h1 h2
    have hv : v = u := h2
    subst hv
    exact h1
  | succ k ih =>
    rintro v n h1 ⟨w, hw, hv⟩
    exact ⟨w, ih h1 hw, hv⟩

theorem stepsTo_front {m : MapModel} {src : Pos} :
    ∀ {n : Nat} {v : Pos}, stepsTo m src (n + 1) v →
      ∃ w ∈ neighbors m src, stepsTo m w n v := by
  intro n
  induction n with
  | zero =>
    rintro v ⟨u, hu, hv⟩
    have hu2 : u = src := hu
    subst hu2
    exact ⟨v, hv, rfl⟩
  | succ n ih =>
    rintro v ⟨u, hu, hv⟩
    obtain ⟨w, hw, hwu⟩ := ih hu
    exact ⟨w, hw, u, hwu, hv⟩

theorem stepsTo_heuristic {m : MapModel} {src : Pos} :
    ∀ {n : Nat} {v : Pos}, stepsTo m src n v → heuristic src v ≤ n := by
  intro n
  induction n with
  | zero =>
    intro v h
    have hv : v = src := h
    subst hv
    rw [heuristic_self]
  | succ n ih =>
    rintro v ⟨u, hu, hv⟩
    have h1 := ih hu
    have h2 := heuristic_eq_one_of_mem hv
    have h3 := heuristic_triangle src u v
    omega

theorem exists_isDist {m : MapModel} {src v : Pos} (h : ∃ n, stepsTo m src n v) :
    ∃ d, IsDist m src d v :=
  ⟨sInf {n | stepsTo m src n v}, Nat.sInf_mem h, fun j hj => Nat.sInf_le hj⟩

/-! ## A* groundwork: valid paths -/

theorem validPath_singleton (m : MapModel) (a : Pos) : ValidPath m [a] a a :=
  ⟨rfl, rfl, by simp⟩

theorem validPath_ne_nil {m : MapModel} {l : List Pos} {src dst : Pos}
    (h : ValidPath m l src dst) : l ≠ [] := by
  rintro rfl
  simp [ValidPath] at h

theorem validPath_append {m : MapModel} {l : List Pos} {src x y : Pos}
    (h : ValidPath m l src x) (hy : y ∈ neighbors m x) :
    ValidPath m (l ++ [y]) src y := by
  obtain ⟨h1, h2, h3⟩ := h
  refine ⟨?_, ?_, ?_⟩
  · cases l with
    | nil => simp at h1
    | cons a t => simpa using h1
  · rw [List.getLast?_concat]
  · rw [List.chain'_append]
    refine ⟨h3, by simp, ?_⟩
    intro a ha b hb
    simp only [List.head?_cons, Option.mem_def, Option.some_inj] at hb
    rw [Option.mem_def, h2, Option.some_inj] at ha
    rw [← hb, ← ha]
    exact hy

theorem validPath_steps {m : MapModel} :
    ∀ {l : List Pos} {src dst : Pos}, ValidPath m l src dst →
      stepsTo m src (l.length - 1) dst := by
  intro l
  induction l using List.reverseRecOn with
  | nil =>
    intro src dst h
    exact absurd rfl (validPath_ne_nil h)
  | append_singleton l b ih =>
    intro src dst h
    obtain ⟨h1, h2, h3⟩ := h
    rw [List.getLast?_concat, Option.some_inj] at h2
    subst h2
    cases l with
    | nil =>
      simp only [List.nil_append, List.head?_cons, Option.some_inj] at h1
      subst h1
      rfl
    | cons a t =>
      rw [List.chain'_append] at h3
      obtain ⟨hc1, _, hrel⟩ := h3
      obtain ⟨x, hx⟩ := Option.isSome_iff_exists.mp
        (List.getLast?_isSome.mpr (by simp : (a :: t) ≠ []))
      have hbx : b ∈ neighbors m x := hrel x (by rw [hx]; rfl) b rfl
      have hvl : ValidPath m (a :: t) src x := ⟨by simpa using h1, hx, hc1⟩
      have hsteps := ih hvl
      have hstep2 : stepsTo m src ((a :: t).length - 1 + 1) b := ⟨x, hsteps, hbx⟩
      have hlen : ((a :: t) ++ [b]).length - 1 = (a :: t).length - 1 + 1 := by
        simp
      rw [hlen]
      exact hstep2

theorem validPath_length_pos {m : MapModel} {l : List Pos} {src dst : Pos}
    (h : ValidPath m l src dst) : 1 ≤ l.length := by
  have := validPath_ne_nil h
  cases l with
  | nil => exact absurd rfl this
  | cons a t => simp

/-! ## A* groundwork: heap pop -/

theorem popMax_eq_none {l : List Node} : popMax l = none ↔ l = [] := by
  cases l with
  | nil => simp [popMax]
  | cons n rest =>
    simp only [popMax]
    constructor
    · intro h
      rcases hrec : popMax rest with _ | pr <;> rw [hrec] at h
      · simp at h
      · obtain ⟨mx, others⟩ := pr
        by_cases hab : nodeAbove mx n = true <;> simp [hab] at h
    · intro h
      exact absurd h (by simp)

theorem nodeAbove_est_le {a b : Node} (h : nodeAbove a b = true) : a.est ≤ b.est := by
  rw [nodeAbove, Bool.or_eq_true, Bool.and_eq_true] at h
  rcases h with h | ⟨h, _⟩
  · exact le_of_lt (of_decide_eq_true h)
  · exact le_of_eq (of_decide_eq_true h)

theorem est_le_of_not_nodeAbove {a b : Node} (h : ¬ nodeAbove a b = true) :
    b.est ≤ a.est := by
  by_contra hc
  push_neg at hc
  exact h (by simp [nodeAbove, hc])

theorem popMax_spec : ∀ {l : List Node} {nd : Node} {rest : List Node},
    popMax l = some (nd, rest) → l.Perm (nd :: rest) ∧ ∀ x ∈ l, nd.est ≤ x.est := by
  intro l
  induction l with
  | nil =>
    intro nd rest h
    simp [popMax] at h
  | cons n t ih =>
    intro nd rest h
    simp only [popMax] at h
    rcases hrec : popMax t with _ | pr
    · simp only [hrec] at h
      have ht : t = [] := popMax_eq_none.mp hrec
      simp only [Option.some_inj, Prod.mk.injEq] at h
      obtain ⟨rfl, rfl⟩ := h
      subst ht
      refine ⟨List.Perm.refl _, ?_⟩
      intro x hx
      simp only [List.mem_singleton] at hx
      subst hx
      exact le_refl _
    · obtain ⟨mx, others⟩ := pr
      simp only [hrec] at h
      obtain ⟨hperm, hmin⟩ := ih hrec
      by_cases hab : nodeAbove mx n = true
      · rw [if_pos hab] at h
        simp only [Option.some_inj, Prod.mk.injEq] at h
        obtain ⟨rfl, rfl⟩ := h
        constructor
        · exact (hperm.cons n).trans (List.Perm.swap mx n others)
        · intro x hx
          rcases List.mem_cons.mp hx with rfl | hx
          · exact nodeAbove_est_le hab
          · exact hmin x hx
      · rw [if_neg hab] at h
        simp only [Option.some_inj, Prod.mk.injEq] at h
        obtain ⟨rfl, rfl⟩ := h
        refine ⟨List.Perm.refl _, ?_⟩
        intro x hx
        rcases List.mem_cons.mp hx with rfl | hx
        · exact le_refl _
        · exact le_trans (est_le_of_not_nodeAbove hab) (hmin x hx)

/-! ## A* groundwork: association-list maps -/

theorem alookup_cons {β : Type} (k : Pos) (v : β) (l : List (Pos × β)) (p : Pos) :
    alookup ((k, v) :: l) p = if k = p then some v else alookup l p := rfl

theorem alookup_cons_self {β : Type} (k : Pos) (v : β) (l : List (Pos × β)) :
    alookup ((k, v) :: l) k = some v := by
  rw [alookup_cons, if_pos rfl]

theorem alookup_cons_ne {β : Type} {k p : Pos} (v : β) (l : List (Pos × β)) (h : k ≠ p) :
    alookup ((k, v) :: l) p = alookup l p := by
  rw [alookup_cons, if_neg h]

theorem alookup_mem {β : Type} : ∀ {l : List (Pos × β)} {p : Pos} {v : β},
    alookup l p = some v → p ∈ l.map Prod.fst := by
  intro l
  induction l with
  | nil =>
    intro p v h
    simp [alookup] at h
  | cons e t ih =>
    intro p v h
    obtain ⟨k, w⟩ := e
    rw [alookup_cons] at h
    by_cases hk : k = p
    · subst hk
      simp
    · rw [if_neg hk] at h
      simp [ih h]


/-! ## A* groundwork: key domains and the termination potential -/

theorem mem_univFinset_of_bounds {m : MapModel} {src p : Pos}
    (h1 : p.1 < m.width) (h2 : p.2 < m.height) : p ∈ univFinset m src := by
  rw [univFinset]
  apply Finset.mem_insert_of_mem
  rw [allPosFinset, Finset.mem_product]
  exact ⟨Finset.mem_range.mpr h1, Finset.mem_range.mpr h2⟩

theorem univFinset_card (m : MapModel) (src : Pos) :
    (univFinset m src).card ≤ m.width * m.height + 1 := by
  rw [univFinset]
  refine le_trans (Finset.card_insert_le _ _) ?_
  rw [allPosFinset, Finset.card_product, Finset.card_range, Finset.card_range]

theorem gDom_card_le (m : MapModel) (src : Pos) (g : List (Pos × Nat)) :
    (gDom m src g).card ≤ m.width * m.height + 1 :=
  le_trans (Finset.card_filter_le _ _) (univFinset_card m src)

theorem gDom_cons {m : MapModel} {src : Pos} {g : List (Pos × Nat)} {nb : Pos} {v : Nat}
    (hnb : nb ∈ univFinset m src) :
    gDom m src ((nb, v) :: g) = insert nb (gDom m src g) := by
  ext p
  simp only [gDom, Finset.mem_filter, Finset.mem_insert, alookup_cons]
  by_cases hp : nb = p
  · subst hp
    simp [hnb]
  · rw [if_neg hp]
    constructor
    · rintro ⟨hu, hs⟩
      exact Or.inr ⟨hu, hs⟩
    · rintro (rfl | ⟨hu, hs⟩)
      · exact absurd rfl hp
      · exact ⟨hu, hs⟩

theorem phiAt_le (g : List (Pos × Nat)) (b : Nat) (p : Pos) : phiAt g b p ≤ b := by
  cases h : alookup g p <;> simp [phiAt, h]

theorem phi_le (m : MapModel) (src : Pos) (g : List (Pos × Nat)) :
    phi m src g ≤ (univFinset m src).card * bcap m := by
  rw [phi]
  refine le_trans (Finset.sum_le_card_nsmul _ _ (bcap m)
    (fun p _ => phiAt_le g (bcap m) p)) ?_
  rw [smul_eq_mul]

theorem phi_cons_lt {m : MapModel} {src : Pos} {g : List (Pos × Nat)} {nb : Pos} {v : Nat}
    (hnb : nb ∈ univFinset m src) (hvb : v + 1 ≤ bcap m)
    (hlt : v < (alookup g nb).getD U32MAX) :
    phi m src ((nb, v) :: g) + 1 ≤ phi m src g := by
  have e1 : phi m src ((nb, v) :: g) =
      (∑ p in (univFinset m src).erase nb, phiAt ((nb, v) :: g) (bcap m) p) +
        phiAt ((nb, v) :: g) (bcap m) nb := by
    rw [phi]
    exact (Finset.sum_erase_add _ _ hnb).symm
  have e2 : phi m src g =
      (∑ p in (univFinset m src).erase nb, phiAt g (bcap m) p) + phiAt g (bcap m) nb := by
    rw [phi]
    exact (Finset.sum_erase_add _ _ hnb).symm
  have hsame : ∀ p ∈ (univFinset m src).erase nb,
      phiAt ((nb, v) :: g) (bcap m) p = phiAt g (bcap m) p := by
    intro p hp
    have hne : ¬ nb = p := fun he => Finset.ne_of_mem_erase hp he.symm
    simp [phiAt, alookup_cons, if_neg hne]
  have hnew : phiAt ((nb, v) :: g) (bcap m) nb = v := by
    simp only [phiAt, alookup_cons_self]
    omega
  have hold : v + 1 ≤ phiAt g (bcap m) nb := by
    cases h : alookup g nb with
    | none =>
      simp only [phiAt, h]
      omega
    | some w =>
      rw [h] at hlt
      simp only [Option.getD_some] at hlt
      simp only [phiAt, h]
      omega
  have hsum : (∑ p in (univFinset m src).erase nb, phiAt ((nb, v) :: g) (bcap m) p) =
      ∑ p in (univFinset m src).erase nb, phiAt g (bcap m) p :=
    Finset.sum_congr rfl hsame
  omega

/-! ## A* groundwork: single relaxation step -/

theorem relaxNeighbor_insert {t curPos : Pos} {s : AState} {nb : Pos} {g0 : Nat}
    (hg0 : alookup s.gScore curPos = some g0)
    (h : g0 + 1 < (alookup s.gScore nb).getD U32MAX) :
    relaxNeighbor t curPos s nb =
      { openSet := { pos := nb, cost := g0 + 1, est := g0 + 1 + heuristic nb t } :: s.openSet,
        cameFrom := (nb, curPos) :: s.cameFrom,
        gScore := (nb, g0 + 1) :: s.gScore } := by
  simp only [relaxNeighbor, hg0, Option.getD_some]
  rw [if_pos h]

theorem relaxNeighbor_skip {t curPos : Pos} {s : AState} {nb : Pos}
    (h : ¬ (alookup s.gScore curPos).getD U32MAX + 1 < (alookup s.gScore nb).getD U32MAX) :
    relaxNeighbor t curPos s nb = s := by
  simp only [relaxNeighbor]
  rw [if_neg h]

theorem relax_lookup_ne {t curPos : Pos} {s : AState} {nb p : Pos} (hne : nb ≠ p) :
    alookup (relaxNeighbor t curPos s nb).gScore p = alookup s.gScore p ∧
    alookup (relaxNeighbor t curPos s nb).cameFrom p = alookup s.cameFrom p := by
  simp only [relaxNeighbor]
  split
  · constructor <;> rw [alookup_cons, if_neg hne]
  · exact ⟨rfl, rfl⟩

theorem relax_invB {m : MapModel} {src t curPos : Pos} {s : AState} {nb : Pos} {g0 : Nat}
    (hInv : InvB m src t s) (hg0 : alookup s.gScore curPos = some g0)
    (hnb : nb ∈ neighbors m curPos) :
    InvB m src t (relaxNeighbor t curPos s nb) := by
  by_cases hrel : g0 + 1 < (alookup s.gScore nb).getD U32MAX
  case neg =>
    have hrel2 : ¬ (alookup s.gScore curPos).getD U32MAX + 1 <
        (alookup s.gScore nb).getD U32MAX := by
      rw [hg0]
      simpa using hrel
    rw [relaxNeighbor_skip hrel2]
    exact hInv
  case pos =>
    rw [relaxNeighbor_insert hg0 hrel]
    have hnbsrc : nb ≠ src := by
      intro he
      subst he
      rw [hInv.gsrc] at hrel
      simp at hrel
    have hnbcur : nb ≠ curPos := ne_of_mem_neighbors hnb
    have hbounds := bounds_of_mem_neighbors hnb
    have hnbuniv : nb ∈ univFinset m src := mem_univFinset_of_bounds hbounds.1 hbounds.2
    refine ⟨?_, ?_, ?_, ?_, ?_, ?_, ?_, ?_, ?_⟩
    · rw [alookup_cons_ne _ _ hnbsrc]
      exact hInv.gsrc
    · intro p v hp
      by_cases hpn : nb = p
      · subst hpn
        exact Or.inr hbounds
      · rw [alookup_cons_ne _ _ hpn] at hp
        exact hInv.keys_sub p v hp
    · intro p v hp
      show v + 1 ≤ (gDom m src ((nb, g0 + 1) :: s.gScore)).card
      rw [gDom_cons hnbuniv]
      by_cases hdom : (alookup s.gScore nb).isSome = true
      · have hmem : nb ∈ gDom m src s.gScore := Finset.mem_filter.mpr ⟨hnbuniv, hdom⟩
        rw [Finset.insert_eq_self.mpr hmem]
        by_cases hpn : nb = p
        · subst hpn
          rw [alookup_cons_self, Option.some_inj] at hp
          obtain ⟨w, hw⟩ := Option.isSome_iff_exists.mp hdom
          have hvb := hInv.val_bound nb w hw
          rw [hw] at hrel
          simp only [Option.getD_some] at hrel
          omega
        · rw [alookup_cons_ne _ _ hpn] at hp
          exact hInv.val_bound p v hp
      · have hmem : nb ∉ gDom m src s.gScore := by
          rw [gDom, Finset.mem_filter]
          rintro ⟨_, hs⟩
          exact hdom hs
        rw [Finset.card_insert_of_not_mem hmem]
        by_cases hpn : nb = p
        · subst hpn
          rw [alookup_cons_self, Option.some_inj] at hp
          have hvb := hInv.val_bound curPos g0 hg0
          omega
        · rw [alookup_cons_ne _ _ hpn] at hp
          have hvb := hInv.val_bound p v hp
          omega
    · rw [alookup_cons_ne _ _ hnbsrc]
      exact hInv.came_src
    · intro p hpsrc hpsome
      by_cases hpn : nb = p
      · subst hpn
        rw [alookup_cons_self]
        rfl
      · rw [alookup_cons_ne _ _ hpn] at hpsome ⊢
        exact hInv.came_dom p hpsrc hpsome
    · intro p q hpq
      by_cases hpn : nb = p
      · subst hpn
        rw [alookup_cons_self, Option.some_inj] at hpq
        subst hpq
        refine ⟨hnb, g0 + 1, g0, alookup_cons_self _ _ _, ?_, le_refl _⟩
        rw [alookup_cons_ne _ _ hnbcur]
        exact hg0
      · rw [alookup_cons_ne _ _ hpn] at hpq
        obtain ⟨hmem, vp, vq, hvp, hvq, hle⟩ := hInv.came_step p q hpq
        have hvp2 : alookup ((nb, g0 + 1) :: s.gScore) p = some vp := by
          rw [alookup_cons_ne _ _ hpn]
          exact hvp
        refine ⟨hmem, vp, ?_⟩
        by_cases hqn : nb = q
        · subst hqn
          refine ⟨g0 + 1, hvp2, alookup_cons_self _ _ _, ?_⟩
          rw [hvq] at hrel
          simp only [Option.getD_some] at hrel
          omega
        · refine ⟨vq, hvp2, ?_, hle⟩
          rw [alookup_cons_ne _ _ hqn]
          exact hvq
    · intro p v hp
      by_cases hpn : nb = p
      · subst hpn
        rw [alookup_cons_self, Option.some_inj] at hp
        subst hp
        obtain ⟨n0, hn0, hsteps⟩ := hInv.g_reach curPos g0 hg0
        exact ⟨n0 + 1, by omega, curPos, hsteps, hnb⟩
      · rw [alookup_cons_ne _ _ hpn] at hp
        exact hInv.g_reach p v hp
    · intro nd hnd
      rcases List.mem_cons.mp hnd with rfl | hnd
      · exact ⟨g0 + 1, alookup_cons_self _ _ _, le_refl _, rfl⟩
      · obtain ⟨v, hv, hvc, hest⟩ := hInv.open_inv nd hnd
        by_cases hpn : nb = nd.pos
        · refine ⟨g0 + 1, ?_, ?_, hest⟩
          · rw [← hpn]
            exact alookup_cons_self _ _ _
          · rw [← hpn] at hv
            rw [hv] at hrel
            simp only [Option.getD_some] at hrel
            omega
        · refine ⟨v, ?_, hvc, hest⟩
          rw [alookup_cons_ne _ _ hpn]
          exact hv
    · intro hsome
      by_cases htn : nb = t
      · subst htn
        exact ⟨_, List.mem_cons_self _ _, rfl⟩
      · rw [alookup_cons_ne _ _ htn] at hsome
        obtain ⟨nd, hnd, hp⟩ := hInv.open_to hsome
        exact ⟨nd, List.mem_cons_of_mem _ hnd, hp⟩

theorem foldRelax_invB {m : MapModel} {src t curPos : Pos} {g0 : Nat} :
    ∀ (l : List Pos) (s : AState), (∀ x ∈ l, x ∈ neighbors m curPos) →
      InvB m src t s → alookup s.gScore curPos = some g0 →
      InvB m src t (l.foldl (relaxNeighbor t curPos) s) := by
  intro l
  induction l with
  | nil =>
    intro s _ hInv _
    exact hInv
  | cons x rest ih =>
    intro s hl hInv hg0
    rw [List.foldl_cons]
    have hx : x ∈ neighbors m curPos := hl x (List.mem_cons_self _ _)
    have hInv1 := relax_invB hInv hg0 hx
    have hg1 : alookup (relaxNeighbor t curPos s x).gScore curPos = some g0 := by
      rw [(relax_lookup_ne (ne_of_mem_neighbors hx)).1]
      exact hg0
    exact ih _ (fun y hy => hl y (List.mem_cons_of_mem _ hy)) hInv1 hg1

theorem expand_invB {m : MapModel} {src t curPos : Pos} {s : AState} {g0 : Nat}
    (hInv : InvB m src t s) (hg0 : alookup s.gScore curPos = some g0) :
    InvB m src t (expand m t curPos s) :=
  foldRelax_invB (neighbors m curPos) s (fun _ hx => hx) hInv hg0

theorem pop_invB {m : MapModel} {src t : Pos} {s : AState} {cur : Node} {rest : List Node}
    (hInv : InvB m src t s) (hpop : popMax s.openSet = some (cur, rest))
    (hcur : cur.pos ≠ t) :
    InvB m src t { s with openSet := rest } := by
  obtain ⟨hperm, _⟩ := popMax_spec hpop
  refine ⟨hInv.gsrc, hInv.keys_sub, hInv.val_bound, hInv.came_src, hInv.came_dom,
    hInv.came_step, hInv.g_reach, ?_, ?_⟩
  · intro nd hnd
    exact hInv.open_inv nd (hperm.mem_iff.mpr (List.mem_cons_of_mem _ hnd))
  · intro hsome
    obtain ⟨nd, hnd, hp⟩ := hInv.open_to hsome
    rcases List.mem_cons.mp (hperm.mem_iff.mp hnd) with rfl | hmem
    · exact absurd hp hcur
    · exact ⟨nd, hmem, hp⟩

/-! ## A* termination measure -/

theorem relax_mu {m : MapModel} {src t curPos : Pos} {s : AState} {nb : Pos} {g0 : Nat}
    (hInv : InvB m src t s) (hg0 : alookup s.gScore curPos = some g0)
    (hnb : nb ∈ neighbors m curPos) :
    phi m src (relaxNeighbor t curPos s nb).gScore +
        (relaxNeighbor t curPos s nb).openSet.length ≤
      phi m src s.gScore + s.openSet.length := by
  by_cases hrel : g0 + 1 < (alookup s.gScore nb).getD U32MAX
  · rw [relaxNeighbor_insert hg0 hrel]
    have hbounds := bounds_of_mem_neighbors hnb
    have hnbuniv : nb ∈ univFinset m src := mem_univFinset_of_bounds hbounds.1 hbounds.2
    have hvb : g0 + 1 + 1 ≤ bcap m := by
      have h1 := hInv.val_bound curPos g0 hg0
      have h2 := gDom_card_le m src s.gScore
      rw [bcap]
      omega
    have hphi := phi_cons_lt hnbuniv hvb hrel
    simp only [List.length_cons]
    omega
  · have hrel2 : ¬ (alookup s.gScore curPos).getD U32MAX + 1 <
        (alookup s.gScore nb).getD U32MAX := by
      rw [hg0]
      simpa using hrel
    rw [relaxNeighbor_skip hrel2]

theorem foldRelax_mu {m : MapModel} {src t curPos : Pos} {g0 : Nat} :
    ∀ (l : List Pos) (s : AState), (∀ x ∈ l, x ∈ neighbors m curPos) →
      InvB m src t s → alookup s.gScore curPos = some g0 →
      phi m src (l.foldl (relaxNeighbor t curPos) s).gScore +
          (l.foldl (relaxNeighbor t curPos) s).openSet.length ≤
        phi m src s.gScore + s.openSet.length := by
  intro l
  induction l with
  | nil =>
    intro s _ _ _
    exact le_refl _
  | cons x rest ih =>
    intro s hl hInv hg0
    rw [List.foldl_cons]
    have hx : x ∈ neighbors m curPos := hl x (List.mem_cons_self _ _)
    have hInv1 := relax_invB hInv hg0 hx
    have hg1 : alookup (relaxNeighbor t curPos s x).gScore curPos = some g0 := by
      rw [(relax_lookup_ne (ne_of_mem_neighbors hx)).1]
      exact hg0
    exact le_trans (ih _ (fun y hy => hl y (List.mem_cons_of_mem _ hy)) hInv1 hg1)
      (relax_mu hInv hg0 hx)

theorem iter_mu {m : MapModel} {src t : Pos} {s : AState} {cur : Node} {rest : List Node}
    (hInv : InvB m src t s) (hpop : popMax s.openSet = some (cur, rest))
    (hcur : cur.pos ≠ t) :
    muA m src (expand m t cur.pos { s with openSet := rest }) < muA m src s := by
  obtain ⟨hperm, _⟩ := popMax_spec hpop
  have hcurmem : cur ∈ s.openSet := hperm.mem_iff.mpr (List.mem_cons_self _ _)
  obtain ⟨g0, hg0, _, _⟩ := hInv.open_inv cur hcurmem
  have hInvP := pop_invB hInv hpop hcur
  have hfold := foldRelax_mu (neighbors m cur.pos) { s with openSet := rest }
    (fun _ hx => hx) hInvP hg0
  have hlen : s.openSet.length = rest.length + 1 := by
    have := hperm.length_eq
    simpa using this
  have h1 : muA m src (expand m t cur.pos { s with openSet := rest }) ≤
      phi m src s.gScore + rest.length := by
    rw [muA, expand]
    exact hfold
  have h2 : muA m src s = phi m src s.gScore + s.openSet.length := rfl
  rw [h2]
  omega

/-! ## A* reconstruction and the found case -/

theorem val_le_cameLen {m : MapModel} {src t : Pos} {s : AState} (hInv : InvB m src t s)
    {p : Pos} {v : Nat} (hv : alookup s.gScore p = some v) : v ≤ s.cameFrom.length := by
  have h1 := hInv.val_bound p v hv
  have hsub : gDom m src s.gScore ⊆ insert src (cDom m src s.cameFrom) := by
    intro q hq
    rw [gDom, Finset.mem_filter] at hq
    by_cases hqs : q = src
    · rw [hqs]
      exact Finset.mem_insert_self _ _
    · apply Finset.mem_insert_of_mem
      rw [cDom, Finset.mem_filter]
      exact ⟨hq.1, hInv.came_dom q hqs hq.2⟩
  have h2 : (gDom m src s.gScore).card ≤ (cDom m src s.cameFrom).card + 1 :=
    le_trans (Finset.card_le_card hsub) (Finset.card_insert_le _ _)
  have h3 : (cDom m src s.cameFrom).card ≤ s.cameFrom.length := by
    have hsub2 : cDom m src s.cameFrom ⊆ (s.cameFrom.map Prod.fst).toFinset := by
      intro q hq
      rw [cDom, Finset.mem_filter] at hq
      obtain ⟨w, hw⟩ := Option.isSome_iff_exists.mp hq.2
      rw [List.mem_toFinset]
      exact alookup_mem hw
    refine le_trans (Finset.card_le_card hsub2) (le_trans (List.toFinset_card_le _) ?_)
    rw [List.length_map]
  omega

theorem recon_valid {m : MapModel} {src t : Pos} {s : AState} (hInv : InvB m src t s) :
    ∀ (fuel : Nat) (cur : Pos) (v : Nat), alookup s.gScore cur = some v → v < fuel →
      ValidPath m ((recon s.cameFrom fuel cur).reverse) src cur ∧
      (recon s.cameFrom fuel cur).length ≤ v + 1 := by
  intro fuel
  induction fuel with
  | zero =>
    intro cur v _ h
    omega
  | succ f ih =>
    intro cur v hv hlt
    cases hc : alookup s.cameFrom cur with
    | none =>
      have hsrc : cur = src := by
        by_contra hne
        have hd := hInv.came_dom cur hne (by rw [hv]; rfl)
        rw [hc] at hd
        simp at hd
      subst hsrc
      have hred : recon s.cameFrom (f + 1) cur = [cur] := by
        simp [recon, hc]
      rw [hred]
      constructor
      · simpa using validPath_singleton m cur
      · simp
    | some prev =>
      obtain ⟨hmem, vp, vq, hvp, hvq, hle⟩ := hInv.came_step cur prev hc
      have hvpv : vp = v := by
        rw [hv] at hvp
        exact (Option.some_inj.mp hvp).symm
      have hvqf : vq < f := by omega
      obtain ⟨ihvalid, ihlen⟩ := ih prev vq hvq hvqf
      have hred : recon s.cameFrom (f + 1) cur = cur :: recon s.cameFrom f prev := by
        simp [recon, hc]
      rw [hred]
      constructor
      · rw [List.reverse_cons]
        exact validPath_append ihvalid hmem
      · simp only [List.length_cons]
        omega

theorem astar_found_valid {m : MapModel} {src t : Pos} :
    ∀ (fuel : Nat) (s : AState) (p : List Pos), InvB m src t s →
      astarGo m t fuel s = AResult.found p → ValidPath m p src t := by
  intro fuel
  induction fuel with
  | zero =>
    intro s p _ h
    simp [astarGo] at h
  | succ f ih =>
    intro s p hInv h
    simp only [astarGo] at h
    cases hpop : popMax s.openSet with
    | none =>
      rw [hpop] at h
      simp at h
    | some pr =>
      obtain ⟨cur, rest⟩ := pr
      simp only [hpop] at h
      by_cases hcur : cur.pos = t
      · rw [if_pos hcur] at h
        simp only [AResult.found.injEq] at h
        subst h
        have hcurmem : cur ∈ s.openSet :=
          ((popMax_spec hpop).1.mem_iff).mpr (List.mem_cons_self _ _)
        obtain ⟨v, hv, _, _⟩ := hInv.open_inv cur hcurmem
        rw [hcur] at hv
        have hfuel : v < s.cameFrom.length + 1 := by
          have := val_le_cameLen hInv hv
          omega
        exact (recon_valid hInv (s.cameFrom.length + 1) t v hv hfuel).1
      · rw [if_neg hcur] at h
        have hcurmem : cur ∈ s.openSet :=
          ((popMax_spec hpop).1.mem_iff).mpr (List.mem_cons_self _ _)
        obtain ⟨g0, hg0, _, _⟩ := hInv.open_inv cur hcurmem
        exact ih _ p (expand_invB (pop_invB hInv hpop hcur) hg0) h

theorem astar_term {m : MapModel} {src t : Pos} :
    ∀ (fuel : Nat) (s : AState), InvB m src t s → muA m src s < fuel →
      astarGo m t fuel s ≠ AResult.outOfFuel := by
  intro fuel
  induction fuel with
  | zero =>
    intro s _ h
    omega
  | succ f ih =>
    intro s hInv hmu
    cases hpop : popMax s.openSet with
    | none => simp [astarGo, hpop]
    | some pr =>
      obtain ⟨cur, rest⟩ := pr
      by_cases hcur : cur.pos = t
      · simp [astarGo, hpop, hcur]
      · have hnext := iter_mu hInv hpop hcur
        have hInvP := pop_invB hInv hpop hcur
        have hcurmem : cur ∈ s.openSet :=
          ((popMax_spec hpop).1.mem_iff).mpr (List.mem_cons_self _ _)
        obtain ⟨g0, hg0, _, _⟩ := hInv.open_inv cur hcurmem
        have hInv2 := expand_invB hInvP hg0
        have hrec := ih (expand m t cur.pos { s with openSet := rest }) hInv2 (by omega)
        simp only [astarGo, hpop]
        rw [if_neg hcur]
        exact hrec

/-! ## A* optimality: effect of one full expansion -/

theorem foldRelax_spec {t curPos : Pos} {g0 : Nat} :
    ∀ (l : List Pos) (s : AState), l.Nodup → curPos ∉ l →
      alookup s.gScore curPos = some g0 →
      alookup (l.foldl (relaxNeighbor t curPos) s).gScore curPos = some g0 ∧
      (∀ p, p ∉ l →
        alookup (l.foldl (relaxNeighbor t curPos) s).gScore p = alookup s.gScore p ∧
        alookup (l.foldl (relaxNeighbor t curPos) s).cameFrom p = alookup s.cameFrom p) ∧
      (∀ w ∈ l,
        (g0 + 1 < (alookup s.gScore w).getD U32MAX →
          alookup (l.foldl (relaxNeighbor t curPos) s).gScore w = some (g0 + 1) ∧
          ({ pos := w, cost := g0 + 1, est := g0 + 1 + heuristic w t } : Node) ∈
            (l.foldl (relaxNeighbor t curPos) s).openSet) ∧
        (¬ g0 + 1 < (alookup s.gScore w).getD U32MAX →
          alookup (l.foldl (relaxNeighbor t curPos) s).gScore w = alookup s.gScore w)) ∧
      (∀ nd ∈ (l.foldl (relaxNeighbor t curPos) s).openSet,
        nd ∈ s.openSet ∨
        ∃ w ∈ l, nd = { pos := w, cost := g0 + 1, est := g0 + 1 + heuristic w t }) ∧
      (∀ nd ∈ s.openSet, nd ∈ (l.foldl (relaxNeighbor t curPos) s).openSet) := by
  intro l
  induction l with
  | nil =>
    intro s _ _ hg0
    exact ⟨hg0, fun p _ => ⟨rfl, rfl⟩, fun w hw => absurd hw (List.not_mem_nil w),
      fun nd hnd => Or.inl hnd, fun nd hnd => hnd⟩
  | cons x rest ih =>
    intro s hnd hncur hg0
    have hxcur : x ≠ curPos := by
      rintro rfl
      exact hncur (List.mem_cons_self _ _)
    have hrestncur : curPos ∉ rest := fun hc => hncur (List.mem_cons_of_mem _ hc)
    have hxrest : x ∉ rest := (List.nodup_cons.mp hnd).1
    have hrestnd : rest.Nodup := (List.nodup_cons.mp hnd).2
    rw [List.foldl_cons]
    by_cases hgx : g0 + 1 < (alookup s.gScore x).getD U32MAX
    · have hs1 : relaxNeighbor t curPos s x =
          { openSet := { pos := x, cost := g0 + 1, est := g0 + 1 + heuristic x t } :: s.openSet,
            cameFrom := (x, curPos) :: s.cameFrom,
            gScore := (x, g0 + 1) :: s.gScore } := relaxNeighbor_insert hg0 hgx
      have hg1 : alookup (relaxNeighbor t curPos s x).gScore curPos = some g0 := by
        rw [hs1]
        rw [alookup_cons_ne _ _ hxcur]
        exact hg0
      obtain ⟨ih1, ih2, ih3, ih4, ih5⟩ :=
        ih (relaxNeighbor t curPos s x) hrestnd hrestncur hg1
      refine ⟨ih1, ?_, ?_, ?_, ?_⟩
      · intro p hp
        have hpx : x ≠ p := by
          rintro rfl
          exact hp (List.mem_cons_self _ _)
        have hprest : p ∉ rest := fun hc => hp (List.mem_cons_of_mem _ hc)
        obtain ⟨e1, e2⟩ := ih2 p hprest
        rw [e1, e2, hs1]
        exact ⟨alookup_cons_ne _ _ hpx, alookup_cons_ne _ _ hpx⟩
      · intro w hw
        rcases List.mem_cons.mp hw with rfl | hwrest
        · refine ⟨fun _ => ?_, fun hng => absurd hgx hng⟩
          obtain ⟨e1, _⟩ := ih2 w hxrest
          refine ⟨?_, ?_⟩
          · rw [e1, hs1]
            exact alookup_cons_self _ _ _
          · refine ih5 _ ?_
            rw [hs1]
            exact List.mem_cons_self _ _
        · have hwx : x ≠ w := by
            rintro rfl
            exact hxrest hwrest
          have hsw : alookup (relaxNeighbor t curPos s x).gScore w = alookup s.gScore w := by
            rw [hs1]
            exact alookup_cons_ne _ _ hwx
          obtain ⟨c1, c2⟩ := ih3 w hwrest
          rw [hsw] at c1 c2
          exact ⟨c1, c2⟩
      · intro nd hnd2
        rcases ih4 nd hnd2 with hnd3 | ⟨w, hw, hndw⟩
        · rw [hs1] at hnd3
          rcases List.mem_cons.mp hnd3 with rfl | hnd4
          · exact Or.inr ⟨x, List.mem_cons_self _ _, rfl⟩
          · exact Or.inl hnd4
        · exact Or.inr ⟨w, List.mem_cons_of_mem _ hw, hndw⟩
      · intro nd hnd2
        refine ih5 nd ?_
        rw [hs1]
        exact List.mem_cons_of_mem _ hnd2
    · have hrel2 : ¬ (alookup s.gScore curPos).getD U32MAX + 1 <
          (alookup s.gScore x).getD U32MAX := by
        rw [hg0]
        simpa using hgx
      have hs1 : relaxNeighbor t curPos s x = s := relaxNeighbor_skip hrel2
      rw [hs1]
      obtain ⟨ih1, ih2, ih3, ih4, ih5⟩ := ih s hrestnd hrestncur hg0
      refine ⟨ih1, fun p hp => ih2 p (fun hc => hp (List.mem_cons_of_mem _ hc)), ?_, ?_, ih5⟩
      · intro w hw
        rcases List.mem_cons.mp hw with rfl | hwrest
        · exact ⟨fun hg => absurd hg hgx, fun _ => (ih2 w hxrest).1⟩
        · exact ih3 w hwrest
      · intro nd hnd2
        rcases ih4 nd hnd2 with h1 | ⟨w, hw, hndw⟩
        · exact Or.inl h1
        · exact Or.inr ⟨w, List.mem_cons_of_mem _ hw, hndw⟩

/-! ## A* optimality: invariant consequences and preservation -/

theorem oi_shortest {m : MapModel} {src t : Pos} {s : AState}
    (hInv : InvB m src t s) (hOI : OI m src t s) :
    ∀ (d : Nat) (z : Pos), IsDist m src d z →
      alookup s.gScore z = some d ∨
      ∃ nd ∈ s.openSet, ∃ dy k, IsDist m src dy nd.pos ∧ nd.cost = dy ∧
        stepsTo m nd.pos k z ∧ dy + k = d := by
  intro d
  induction d using Nat.strong_induction_on with
  | _ d ih =>
    intro z hd
    by_cases hz : alookup s.gScore z = some d
    · exact Or.inl hz
    · cases d with
      | zero =>
        have hzsrc : z = src := hd.1
        subst hzsrc
        exact absurd hInv.gsrc hz
      | succ e =>
        obtain ⟨u, hu, hz2⟩ := hd.1
        have hdu : IsDist m src e u := by
          refine ⟨hu, ?_⟩
          intro j hj
          by_contra hlt
          push_neg at hlt
          have hstep : stepsTo m src (j + 1) z := ⟨u, hj, hz2⟩
          have := hd.2 _ hstep
          omega
        rcases ih e (by omega) u hdu with hleft | ⟨nd, hnd, dy, k, hdy, hcost, hstk, hsum⟩
        · rcases hOI u e hleft hdu with hfirst | ⟨nd, hnd, hpos, hcost⟩
          · obtain ⟨vz, hvz, hvzle⟩ := hfirst z hz2
            obtain ⟨n0, hn0, hst⟩ := hInv.g_reach z vz hvz
            have hmin := hd.2 n0 hst
            have hveq : vz = e + 1 := by omega
            subst hveq
            exact Or.inl hvz
          · refine Or.inr ⟨nd, hnd, e, 1, ?_, hcost, ?_, by omega⟩
            · rw [hpos]
              exact hdu
            · rw [hpos]
              exact stepsTo_one_of_mem hz2
        · exact Or.inr ⟨nd, hnd, dy, k + 1, hdy, hcost,
            stepsTo_concat hstk (stepsTo_one_of_mem hz2), by omega⟩

theorem oi_preserve {m : MapModel} {src t : Pos} {s : AState} {cur : Node} {rest : List Node}
    (hsize : m.width * m.height + 1 < U32MAX)
    (hInv : InvB m src t s) (hOI : OI m src t s)
    (hpop : popMax s.openSet = some (cur, rest)) :
    OI m src t (expand m t cur.pos { s with openSet := rest }) := by
  obtain ⟨hperm, hmin⟩ := popMax_spec hpop
  have hcurmem : cur ∈ s.openSet := hperm.mem_iff.mpr (List.mem_cons_self _ _)
  obtain ⟨g0, hg0, hg0c, hest⟩ := hInv.open_inv cur hcurmem
  obtain ⟨hsp1, hsp2, hsp3, hsp4, hsp5⟩ :=
    foldRelax_spec (neighbors m cur.pos) { s with openSet := rest }
      (neighbors_nodup m cur.pos) (not_mem_neighbors_self m cur.pos) hg0
  rw [expand]
  intro u du hu hdist
  have hmain : alookup s.gScore u = some du →
      (∀ w ∈ neighbors m u, ∃ vw,
        alookup ((neighbors m cur.pos).foldl (relaxNeighbor t cur.pos)
          { s with openSet := rest }).gScore w = some vw ∧ vw ≤ du + 1) ∨
      (∃ nd ∈ ((neighbors m cur.pos).foldl (relaxNeighbor t cur.pos)
          { s with openSet := rest }).openSet, nd.pos = u ∧ nd.cost = du) := by
    intro hus
    rcases hOI u du hus hdist with hfirst | ⟨nd, hnd, hndpos, hndcost⟩
    · left
      intro w hw
      obtain ⟨vw, hvw, hvwle⟩ := hfirst w hw
      by_cases hwl : w ∈ neighbors m cur.pos
      · by_cases hgw : g0 + 1 < (alookup s.gScore w).getD U32MAX
        · obtain ⟨hlw, _⟩ := (hsp3 w hwl).1 hgw
          refine ⟨g0 + 1, hlw, ?_⟩
          rw [hvw] at hgw
          simp only [Option.getD_some] at hgw
          omega
        · refine ⟨vw, ?_, hvwle⟩
          rw [(hsp3 w hwl).2 hgw]
          exact hvw
      · refine ⟨vw, ?_, hvwle⟩
        rw [(hsp2 w hwl).1]
        exact hvw
    · rcases List.mem_cons.mp (hperm.mem_iff.mp hnd) with hcur_eq | hndrest
      · left
        have hupos : cur.pos = u := by
          rw [← hcur_eq]
          exact hndpos
        rw [hupos] at hg0
        have hg0du : g0 = du := by
          rw [hg0] at hus
          exact Option.some_inj.mp hus
        intro w hw
        have hw2 : w ∈ neighbors m cur.pos := by
          rw [hupos]
          exact hw
        by_cases hgw : g0 + 1 < (alookup s.gScore w).getD U32MAX
        · obtain ⟨hlw, _⟩ := (hsp3 w hw2).1 hgw
          exact ⟨g0 + 1, hlw, by omega⟩
        · have hng := hgw
          cases hlw : alookup s.gScore w with
          | none =>
            rw [hlw] at hgw
            simp only [Option.getD_none] at hgw
            have hb := hInv.val_bound _ _ hg0
            have hc := gDom_card_le m src s.gScore
            omega
          | some vw =>
            rw [hlw] at hgw
            simp only [Option.getD_some] at hgw
            refine ⟨vw, ?_, by omega⟩
            rw [(hsp3 w hw2).2 hng]
            exact hlw
      · right
        exact ⟨nd, hsp5 nd hndrest, hndpos, hndcost⟩
  by_cases hul : u ∈ neighbors m cur.pos
  · by_cases hgu : g0 + 1 < (alookup s.gScore u).getD U32MAX
    · obtain ⟨hlu, hmemnode⟩ := (hsp3 u hul).1 hgu
      rw [hu] at hlu
      have hdu2 : du = g0 + 1 := Option.some_inj.mp hlu
      right
      exact ⟨_, hmemnode, rfl, hdu2.symm⟩
    · have hlu := (hsp3 u hul).2 hgu
      rw [hu] at hlu
      exact hmain hlu.symm
  · have hlu := (hsp2 u hul).1
    rw [hu] at hlu
    exact hmain hlu.symm

/-! ## A* loop: optimal found paths and exhaustive failure -/

theorem astar_found_opt {m : MapModel} {src t : Pos}
    (hsize : m.width * m.height + 1 < U32MAX) :
    ∀ (fuel : Nat) (s : AState) (p : List Pos), InvB m src t s → OI m src t s →
      astarGo m t fuel s = AResult.found p →
      ∃ d, IsDist m src d t ∧ p.length = d + 1 ∧ ValidPath m p src t := by
  intro fuel
  induction fuel with
  | zero =>
    intro s p _ _ h
    simp [astarGo] at h
  | succ f ih =>
    intro s p hInv hOI h
    simp only [astarGo] at h
    cases hpop : popMax s.openSet with
    | none =>
      rw [hpop] at h
      simp at h
    | some pr =>
      obtain ⟨cur, rest⟩ := pr
      simp only [hpop] at h
      by_cases hcur : cur.pos = t
      · rw [if_pos hcur] at h
        simp only [AResult.found.injEq] at h
        subst h
        obtain ⟨hperm, hmin⟩ := popMax_spec hpop
        have hcurmem : cur ∈ s.openSet := hperm.mem_iff.mpr (List.mem_cons_self _ _)
        obtain ⟨v, hv, hvc, hveq⟩ := hInv.open_inv cur hcurmem
        rw [hcur] at hv
        rw [hcur] at hveq
        rw [heuristic_self] at hveq
        obtain ⟨n0, hn0, hst⟩ := hInv.g_reach t v hv
        obtain ⟨d, hd⟩ := exists_isDist ⟨n0, hst⟩
        have hdv : d ≤ v := le_trans (hd.2 n0 hst) hn0
        have hvd : v = d := by
          by_contra hne
          have hvgt : d < v := by omega
          rcases oi_shortest hInv hOI d t hd with hleft | ⟨nd, hnd, dy, k, hdy, hcost, hstk, hsum⟩
          · rw [hv] at hleft
            have := Option.some_inj.mp hleft
            omega
          · obtain ⟨vn, hvn, hvnc, hvne⟩ := hInv.open_inv nd hnd
            have hh := stepsTo_heuristic hstk
            have hndest : nd.est ≤ d := by
              rw [hvne, hcost]
              omega
            have hcmin := hmin nd hnd
            omega
        rw [hvd] at hv
        have hfuel : d < s.cameFrom.length + 1 := by
          have := val_le_cameLen hInv hv
          omega
        obtain ⟨hvalid, hlen⟩ := recon_valid hInv (s.cameFrom.length + 1) t d hv hfuel
        refine ⟨d, hd, ?_, hvalid⟩
        have hsteps := validPath_steps hvalid
        have hge := hd.2 _ hsteps
        have hpos := validPath_length_pos hvalid
        rw [List.length_reverse] at hsteps hge hpos ⊢
        omega
      · rw [if_neg hcur] at h
        obtain ⟨hperm, _⟩ := popMax_spec hpop
        have hcurmem : cur ∈ s.openSet := hperm.mem_iff.mpr (List.mem_cons_self _ _)
        obtain ⟨g0, hg0, _, _⟩ := hInv.open_inv cur hcurmem
        exact ih _ p (expand_invB (pop_invB hInv hpop hcur) hg0)
          (oi_preserve hsize hInv hOI hpop) h

theorem astar_nopath {m : MapModel} {src t : Pos}
    (hsize : m.width * m.height + 1 < U32MAX) :
    ∀ (fuel : Nat) (s : AState), InvB m src t s → OI m src t s →
      astarGo m t fuel s = AResult.noPath → ∀ n, ¬ stepsTo m src n t := by
  intro fuel
  induction fuel with
  | zero =>
    intro s _ _ h
    simp [astarGo] at h
  | succ f ih =>
    intro s hInv hOI h
    simp only [astarGo] at h
    cases hpop : popMax s.openSet with
    | none =>
      have hempty : s.openSet = [] := popMax_eq_none.mp hpop
      intro n hn
      obtain ⟨d, hd⟩ := exists_isDist ⟨n, hn⟩
      rcases oi_shortest hInv hOI d t hd with hleft | ⟨nd, hnd, _⟩
      · obtain ⟨nd, hnd, _⟩ := hInv.open_to (by rw [hleft]; rfl)
        rw [hempty] at hnd
        exact absurd hnd (List.not_mem_nil nd)
      · rw [hempty] at hnd
        exact absurd hnd (List.not_mem_nil nd)
    | some pr =>
      obtain ⟨cur, rest⟩ := pr
      simp only [hpop] at h
      by_cases hcur : cur.pos = t
      · rw [if_pos hcur] at h
        simp at h
      · rw [if_neg hcur] at h
        obtain ⟨hperm, _⟩ := popMax_spec hpop
        have hcurmem : cur ∈ s.openSet := hperm.mem_iff.mpr (List.mem_cons_self _ _)
        obtain ⟨g0, hg0, _, _⟩ := hInv.open_inv cur hcurmem
        exact ih _ (expand_invB (pop_invB hInv hpop hcur) hg0)
          (oi_preserve hsize hInv hOI hpop) h

/-! ## `find_path` top level -/

theorem initial_invB {m : MapModel} {fr t : Pos} (hne : fr ≠ t) :
    InvB m fr t (initAState fr t) := by
  refine ⟨?_, ?_, ?_, ?_, ?_, ?_, ?_, ?_, ?_⟩
  · exact alookup_cons_self _ _ _
  · intro p v hp
    show p = fr ∨ _
    by_cases hpf : fr = p
    · exact Or.inl hpf.symm
    · rw [show (initAState fr t).gScore = [(fr, 0)] from rfl, alookup_cons_ne _ _ hpf] at hp
      simp [alookup] at hp
  · intro p v hp
    by_cases hpf : fr = p
    · subst hpf
      rw [show (initAState fr t).gScore = [(fr, 0)] from rfl, alookup_cons_self] at hp
      have hv : v = 0 := (Option.some_inj.mp hp).symm
      subst hv
      have hmem : fr ∈ gDom m fr (initAState fr t).gScore := by
        rw [gDom, Finset.mem_filter]
        refine ⟨Finset.mem_insert_self _ _, ?_⟩
        rw [show (initAState fr t).gScore = [(fr, 0)] from rfl, alookup_cons_self]
        rfl
      have := Finset.card_pos.mpr ⟨fr, hmem⟩
      omega
    · rw [show (initAState fr t).gScore = [(fr, 0)] from rfl, alookup_cons_ne _ _ hpf] at hp
      simp [alookup] at hp
  · rfl
  · intro p hpf hps
    by_cases hfp : fr = p
    · exact absurd hfp.symm hpf
    · rw [show (initAState fr t).gScore = [(fr, 0)] from rfl, alookup_cons_ne _ _ hfp] at hps
      simp [alookup] at hps
  · intro p q hpq
    simp [alookup] at hpq
  · intro p v hp
    by_cases hpf : fr = p
    · subst hpf
      rw [show (initAState fr t).gScore = [(fr, 0)] from rfl, alookup_cons_self,
        Option.some_inj] at hp
      exact ⟨0, by omega, rfl⟩
    · rw [show (initAState fr t).gScore = [(fr, 0)] from rfl, alookup_cons_ne _ _ hpf] at hp
      simp [alookup] at hp
  · intro nd hnd
    rw [show (initAState fr t).openSet =
      [{ pos := fr, cost := 0, est := heuristic fr t }] from rfl] at hnd
    simp only [List.mem_singleton] at hnd
    subst hnd
    exact ⟨0, alookup_cons_self _ _ _, le_refl _, (Nat.zero_add _).symm⟩
  · intro hsome
    by_cases hft : fr = t
    · exact absurd hft hne
    · rw [show (initAState fr t).gScore = [(fr, 0)] from rfl, alookup_cons_ne _ _ hft] at hsome
      simp [alookup] at hsome

theorem initial_oi (m : MapModel) (fr t : Pos) : OI m fr t (initAState fr t) := by
  intro u du hu hdist
  by_cases hfu : fr = u
  · subst hfu
    rw [show (initAState fr t).gScore = [(fr, 0)] from rfl, alookup_cons_self,
      Option.some_inj] at hu
    right
    exact ⟨{ pos := fr, cost := 0, est := heuristic fr t }, List.mem_cons_self _ _, rfl, hu⟩
  · rw [show (initAState fr t).gScore = [(fr, 0)] from rfl, alookup_cons_ne _ _ hfu] at hu
    simp [alookup] at hu

theorem initial_mu (m : MapModel) (fr t : Pos) :
    muA m fr (initAState fr t) < astarFuel m := by
  have h1 := phi_le m fr (initAState fr t).gScore
  have h2 := univFinset_card m fr
  have h3 : (univFinset m fr).card * bcap m ≤ (m.width * m.height + 1) * bcap m :=
    Nat.mul_le_mul_right _ h2
  have h4 : muA m fr (initAState fr t) =
      phi m fr (initAState fr t).gScore + 1 := rfl
  have h5 : astarFuel m =
      (m.width * m.height + 1) * (m.width * m.height + 2) + 2 := rfl
  have h6 : bcap m = m.width * m.height + 2 := rfl
  rw [h6] at h1 h3
  omega

theorem findPath_valid {m : MapModel} {fr t : Pos} {p : List Pos}
    (h : findPath m fr t = some p) : ValidPath m p fr t := by
  rw [findPath] at h
  by_cases hne : fr = t
  · rw [if_pos hne] at h
    simp only [Option.some_inj] at h
    subst h
    rw [← hne]
    exact validPath_singleton m fr
  · rw [if_neg hne] at h
    cases hres : astarGo m t (astarFuel m) (initAState fr t) with
    | found q =>
      rw [hres] at h
      simp only [Option.some_inj] at h
      subst h
      exact astar_found_valid (astarFuel m) (initAState fr t) q (initial_invB hne) hres
    | noPath =>
      rw [hres] at h
      simp at h
    | outOfFuel =>
      rw [hres] at h
      simp at h

theorem findPath_complete {m : MapModel} {fr t : Pos}
    (hsize : m.width * m.height + 1 < U32MAX) (hne : fr ≠ t)
    (hreach : ∃ n, stepsTo m fr n t) :
    ∃ p d, findPath m fr t = some p ∧ IsDist m fr d t ∧ p.length = d + 1 ∧
      ValidPath m p fr t := by
  rw [findPath, if_neg hne]
  cases hres : astarGo m t (astarFuel m) (initAState fr t) with
  | found q =>
    obtain ⟨d, hd, hlen, hvalid⟩ := astar_found_opt hsize (astarFuel m) (initAState fr t) q
      (initial_invB hne) (initial_oi m fr t) hres
    exact ⟨q, d, rfl, hd, hlen, hvalid⟩
  | noPath =>
    obtain ⟨n, hn⟩ := hreach
    exact absurd hn (astar_nopath hsize (astarFuel m) (initAState fr t)
      (initial_invB hne) (initial_oi m fr t) hres n)
  | outOfFuel =>
    exact absurd hres (astar_term (astarFuel m) (initAState fr t)
      (initial_invB hne) (initial_mu m fr t))

/-! ## Obstacle-free grids: the Manhattan staircase walk -/

theorem getCell_walkable {m : MapModel} (hwf : WF m) (hno : NoObstacle m = true)
    {x y : Nat} (hx : x < m.width) (hy : y < m.height) :
    ∃ c, getCell m x y = some c ∧ isWalkable c = true := by
  obtain ⟨hlen, hrow⟩ := hwf
  have hylen : y < m.grid.length := by omega
  have hrowsome : m.grid[y]? = some m.grid[y] := List.getElem?_eq_getElem hylen
  have hmem : m.grid[y] ∈ m.grid := List.getElem_mem hylen
  have hxlen : x < (m.grid[y]).length := by rw [hrow _ hmem]; exact hx
  refine ⟨(m.grid[y])[x], ?_, ?_⟩
  · simp only [getCell, hrowsome]
    exact List.getElem?_eq_getElem hxlen
  · rw [NoObstacle, List.all_eq_true] at hno
    have hrall := hno _ hmem
    rw [List.all_eq_true] at hrall
    exact hrall _ (List.getElem_mem hxlen)

theorem steps_succ_of_nb {m : MapModel} {a b c : Pos} {k : Nat}
    (hnb : b ∈ neighbors m a) (h : stepsTo m b k c) : stepsTo m a (k + 1) c := by
  have hcat := stepsTo_concat (stepsTo_one_of_mem hnb) h
  rw [Nat.add_comm 1 k] at hcat
  exact hcat

theorem steps_manhattan {m : MapModel} (hwf : WF m) (hno : NoObstacle m = true) :
    ∀ (k : Nat) (a b : Pos), heuristic a b = k →
      a.1 < m.width → a.2 < m.height → b.1 < m.width → b.2 < m.height →
      stepsTo m a k b := by
  intro k
  induction k with
  | zero =>
    intro a b hh _ _ _ _
    obtain ⟨a1, a2⟩ := a
    obtain ⟨b1, b2⟩ := b
    simp only [heuristic] at hh
    have e1 : b1 = a1 := by omega
    have e2 : b2 = a2 := by omega
    show (b1, b2) = (a1, a2)
    rw [e1, e2]
  | succ k ih =>
    intro a b hh ha1 ha2 hb1 hb2
    obtain ⟨a1, a2⟩ := a
    obtain ⟨b1, b2⟩ := b
    simp only [heuristic] at hh
    by_cases hx : a1 = b1
    · by_cases hlt : a2 < b2
      · have hnb : ((a1, a2 + 1) : Pos) ∈ neighbors m (a1, a2) := by
          rw [mem_neighbors_iff]
          exact ⟨ha1, by omega,
            getCell_walkable hwf hno ha1 (by omega),
            Or.inr (Or.inr (Or.inl ⟨rfl, rfl⟩))⟩
        have hk : heuristic (a1, a2 + 1) (b1, b2) = k := by
          simp only [heuristic]
          omega
        exact steps_succ_of_nb hnb
          (ih (a1, a2 + 1) (b1, b2) hk ha1 (by omega) hb1 hb2)
      · have hgt : b2 < a2 := by omega
        have hnb : ((a1, a2 - 1) : Pos) ∈ neighbors m (a1, a2) := by
          rw [mem_neighbors_iff]
          exact ⟨ha1, by omega,
            getCell_walkable hwf hno ha1 (by omega),
            Or.inr (Or.inr (Or.inr ⟨rfl, by omega⟩))⟩
        have hk : heuristic (a1, a2 - 1) (b1, b2) = k := by
          simp only [heuristic]
          omega
        exact steps_succ_of_nb hnb
          (ih (a1, a2 - 1) (b1, b2) hk ha1 (by omega) hb1 hb2)
    · by_cases hlt : a1 < b1
      · have hnb : ((a1 + 1, a2) : Pos) ∈ neighbors m (a1, a2) := by
          rw [mem_neighbors_iff]
          exact ⟨by omega, ha2,
            getCell_walkable hwf hno (by omega) ha2,
            Or.inl ⟨rfl, rfl⟩⟩
        have hk : heuristic (a1 + 1, a2) (b1, b2) = k := by
          simp only [heuristic]
          omega
        exact steps_succ_of_nb hnb
          (ih (a1 + 1, a2) (b1, b2) hk (by omega) ha2 hb1 hb2)
      · have hgt : b1 < a1 := by omega
        have hnb : ((a1 - 1, a2) : Pos) ∈ neighbors m (a1, a2) := by
          rw [mem_neighbors_iff]
          exact ⟨by omega, ha2,
            getCell_walkable hwf hno (by omega) ha2,
            Or.inr (Or.inl ⟨by omega, rfl⟩)⟩
        have hk : heuristic (a1 - 1, a2) (b1, b2) = k := by
          simp only [heuristic]
          omega
        exact steps_succ_of_nb hnb
          (ih (a1 - 1, a2) (b1, b2) hk (by omega) ha2 hb1 hb2)

/-! ## C4 — `find_path` on obstacle-free grids -/

/-- C4: on a well-formed grid with no `Obstacle` cells (small enough that all
tentative g-scores stay below the `u32::MAX` sentinel, as the code's guard
requires) and in-bounds endpoints, `find_path(from, to)` returns `Some(path)`
where the path starts at `from`, ends at `to`, moves only between
4-directionally adjacent walkable cells, and has length
`manhattan_distance(from, to) + 1`. -/
theorem C4_find_path_no_obstacles {m : MapModel} {fr t : Pos}
    (hwf : WF m) (hno : NoObstacle m = true)
    (hsize : m.width * m.height + 1 < U32MAX)
    (hf1 : fr.1 < m.width) (hf2 : fr.2 < m.height)
    (ht1 : t.1 < m.width) (ht2 : t.2 < m.height) :
    ∃ p, findPath m fr t = some p ∧ ValidPath m p fr t ∧
      p.length = heuristic fr t + 1 := by
  by_cases hne : fr = t
  · subst hne
    refine ⟨[fr], ?_, validPath_singleton m fr, ?_⟩
    · rw [findPath, if_pos rfl]
    · simp [heuristic_self]
  · have hreach : ∃ n, stepsTo m fr n t :=
      ⟨heuristic fr t, steps_manhattan hwf hno _ fr t rfl hf1 hf2 ht1 ht2⟩
    obtain ⟨p, d, hp, hd, hlen, hvalid⟩ := findPath_complete hsize hne hreach
    have hle : d ≤ heuristic fr t :=
      hd.2 _ (steps_manhattan hwf hno _ fr t rfl hf1 hf2 ht1 ht2)
    have hge : heuristic fr t ≤ d := stepsTo_heuristic hd.1
    exact ⟨p, hp, hvalid, by omega⟩

/-- C4 witness: the obstacle-free 2×2 grid, corner to corner. -/
theorem C4_witness :
    WF mOpen2 ∧ NoObstacle mOpen2 = true ∧
    mOpen2.width * mOpen2.height + 1 < U32MAX ∧
    (∃ p, findPath mOpen2 (0, 0) (1, 1) = some p ∧
      ValidPath mOpen2 p (0, 0) (1, 1) ∧
      p.length = heuristic (0, 0) (1, 1) + 1) :=
  ⟨⟨rfl, by decide⟩, by decide, by decide,
    C4_find_path_no_obstacles ⟨rfl, by decide⟩ (by decide) (by decide)
      (by decide) (by decide) (by decide) (by decide)⟩

/-! ## C5 — `find_path` failure cases (amended) -/

/-- C5 (amended): for `from ≠ to`, if the target cell is not walkable (an
`Obstacle`) or the target is unreachable through adjacent walkable cells, then
`find_path` returns `None`. (For `from = to` the code returns `Some([from])`
unconditionally, before any obstacle or reachability check — see the recorded
counterexample — so the amended guarantee excludes that case.) -/
theorem C5_find_path_none {m : MapModel} {fr t : Pos} (hne : fr ≠ t)
    (h : (∃ c, getCell m t.1 t.2 = some c ∧ isWalkable c = false) ∨
      (∀ n, ¬ stepsTo m fr n t)) :
    findPath m fr t = none := by
  have hunreach : ∀ n, ¬ stepsTo m fr n t := by
    rcases h with ⟨c, hc, hw⟩ | h
    · intro n hn
      cases n with
      | zero =>
        have ht : t = fr := hn
        exact hne ht.symm
      | succ n =>
        obtain ⟨u, _, hmem⟩ := hn
        rw [mem_neighbors_iff] at hmem
        obtain ⟨_, _, ⟨c2, hc2, hw2⟩, _⟩ := hmem
        rw [hc] at hc2
        rw [← Option.some_inj.mp hc2] at hw2
        rw [hw] at hw2
        simp at hw2
    · exact h
  rw [findPath, if_neg hne]
  cases hres : astarGo m t (astarFuel m) (initAState fr t) with
  | found q =>
    have hvalid := astar_found_valid (astarFuel m) (initAState fr t) q
      (initial_invB hne) hres
    exact absurd (validPath_steps hvalid) (hunreach _)
  | noPath => rfl
  | outOfFuel => rfl

/-- C5 witness: in the 2×1 grid with an obstacle at `(1,0)`, the search from
`(0,0)` to the obstacle returns `None`. -/
theorem C5_witness :
    ((0, 0) : Pos) ≠ (1, 0) ∧ findPath mWall (0, 0) (1, 0) = none :=
  ⟨by decide, C5_find_path_none (by decide)
    (Or.inl ⟨Cell.Obstacle, rfl, rfl⟩)⟩

/-! ## C6 — `next_step_towards` -/

/-- C6: `next_step_towards(from, to)` (a) when `from ≠ to`, `to` is reachable
and the grid is small enough for the u32 g-scores, returns the second entry of
a shortest `find_path` path (which has length > 1); (b) returns `from` when
`find_path` fails; (c) returns `from` when `from = to`; and (d) in every case
returns either `from` itself or a walkable cell adjacent to `from`. -/
theorem C6_next_step_towards {m : MapModel} {fr t : Pos} :
    (fr ≠ t → (∃ n, stepsTo m fr n t) → m.width * m.height + 1 < U32MAX →
      ∃ p d, findPath m fr t = some p ∧ ValidPath m p fr t ∧ IsDist m fr d t ∧
        p.length = d + 1 ∧ 1 < p.length ∧
        nextStepTowards m fr t = p.getD 1 fr) ∧
    (findPath m fr t = none → nextStepTowards m fr t = fr) ∧
    (fr = t → nextStepTowards m fr t = fr) ∧
    (nextStepTowards m fr t = fr ∨ nextStepTowards m fr t ∈ neighbors m fr) := by
  refine ⟨?_, ?_, ?_, ?_⟩
  · intro hne hreach hsize
    obtain ⟨p, d, hp, hd, hlen, hvalid⟩ := findPath_complete hsize hne hreach
    have hd1 : 1 ≤ d := by
      by_contra h0
      have hd0 : d = 0 := by omega
      rw [hd0] at hd
      have ht : t = fr := hd.1
      exact hne ht.symm
    refine ⟨p, d, hp, hvalid, hd, hlen, by omega, ?_⟩
    simp only [nextStepTowards, hp]
    rw [if_pos (show 1 < p.length by omega)]
  · intro hnone
    simp only [nextStepTowards, hnone]
  · intro heq
    have hfp : findPath m fr t = some [fr] := by rw [findPath, if_pos heq]
    simp [nextStepTowards, hfp]
  · cases hfp : findPath m fr t with
    | none =>
      left
      simp only [nextStepTowards, hfp]
    | some p =>
      by_cases hlen : 1 < p.length
      · have hvalid := findPath_valid hfp
        obtain ⟨hhead, _, hchain⟩ := hvalid
        cases p with
        | nil => simp at hlen
        | cons a q =>
          cases q with
          | nil => simp at hlen
          | cons b r =>
            right
            have ha : a = fr := by
              rw [List.head?_cons] at hhead
              exact Option.some_inj.mp hhead
            rw [List.chain'_cons] at hchain
            have hres : nextStepTowards m fr t = b := by
              simp only [nextStepTowards, hfp]
              rw [if_pos hlen]
              rfl
            rw [hres, ← ha]
            exact hchain.1
      · left
        simp only [nextStepTowards, hfp]
        rw [if_neg hlen]

/-- C6 witness: on the obstacle-free 2×1 grid, the first step from `(0,0)`
towards `(1,0)` is the adjacent cell given by a shortest path, and the result
is a neighbour of the start. -/
theorem C6_witness :
    (∃ p d, findPath mLine (0, 0) (1, 0) = some p ∧
      ValidPath mLine p (0, 0) (1, 0) ∧ IsDist mLine (0, 0) d (1, 0) ∧
      p.length = d + 1 ∧ 1 < p.length ∧
      nextStepTowards mLine (0, 0) (1, 0) = p.getD 1 (0, 0)) ∧
    (nextStepTowards mLine (0, 0) (1, 0) = (0, 0) ∨
      nextStepTowards mLine (0, 0) (1, 0) ∈ neighbors mLine (0, 0)) :=
  ⟨(C6_next_step_towards).1 (by decide)
      ⟨1, (0, 0), rfl, by decide⟩ (by decide),
    (C6_next_step_towards).2.2.2⟩

end Swarm
